import Mathlib

/-!
Verification of the sales-analytics in-memory store (`src/app.py`).

The embedding models the module-level state (`transactions`, `product_totals`,
`customer_totals`, `product_index`, `customer_index`, `next_id`) and the
operations that mutate or query it.  Python dicts are modelled as
insertion-ordered association lists, Python sets of record ids as
insertion-ordered duplicate-free lists, Python ints as `Int`/`Nat`, and Python
floats as exact rationals `ℚ`.  Timestamps are modelled as integer instants
(UTC ordering); ISO-8601 parsing itself is an external collaborator of the
core and is abstracted by the `TsIn` payload type.
-/

namespace SalesAPI

/-- Insertion-ordered association list modelling a Python `dict`. -/
abbrev Dict (α β : Type) := List (α × β)

/-- Python dict lookup, `m.get(k)`. -/
def lookupD [DecidableEq α] : Dict α β → α → Option β
  | [], _ => none
  | (ka, v) :: m, k => if ka = k then some v else lookupD m k

/-- Python dict membership, `k in m`. -/
def containsD [DecidableEq α] (m : Dict α β) (k : α) : Bool :=
  (lookupD m k).isSome

/-- Python dict assignment `m[k] = v`: overwrite in place when the key is
present (keeping its position), otherwise append the binding at the end. -/
def setD [DecidableEq α] (m : Dict α β) (k : α) (v : β) : Dict α β :=
  if containsD m k then m.map (fun kv => if kv.1 = k then (k, v) else kv)
  else m ++ [(k, v)]

/-- Python dict key removal, `m.pop(k, None)`. -/
def eraseD [DecidableEq α] (m : Dict α β) (k : α) : Dict α β :=
  m.filter (fun kv => kv.1 ≠ k)

/-- Key list of a dict, in insertion order. -/
def keysD (m : Dict α β) : List α := m.map (·.1)

@[simp] theorem lookupD_nil [DecidableEq α] (k : α) :
    lookupD ([] : Dict α β) k = none := rfl

@[simp] theorem lookupD_cons [DecidableEq α] (ka : α) (v : β) (m : Dict α β) (k : α) :
    lookupD ((ka, v) :: m) k = if ka = k then some v else lookupD m k := rfl

theorem mem_of_lookupD [DecidableEq α] {m : Dict α β} {k : α} {v : β}
    (h : lookupD m k = some v) : (k, v) ∈ m := by
  induction m with
  | nil => simp at h
  | cons e m ih =>
    obtain ⟨ka, va⟩ := e
    by_cases hk : ka = k
    · subst hk; simp at h; simp [h]
    · simp [hk] at h; simp [ih h]

theorem lookupD_of_mem [DecidableEq α] {m : Dict α β} {k : α} {v : β}
    (hnd : (keysD m).Nodup) (h : (k, v) ∈ m) : lookupD m k = some v := by
  induction m with
  | nil => simp at h
  | cons e m ih =>
    obtain ⟨ka, va⟩ := e
    simp only [keysD, List.map_cons, List.nodup_cons] at hnd
    rcases List.mem_cons.1 h with h1 | h1
    · cases h1
      simp
    · have hk : ka ≠ k := by
        rintro rfl
        exact hnd.1 (List.mem_map.2 ⟨(ka, v), h1, rfl⟩)
      simp [hk, ih hnd.2 h1]

theorem containsD_iff_mem_keys [DecidableEq α] {m : Dict α β} {k : α} :
    containsD m k = true ↔ k ∈ keysD m := by
  induction m with
  | nil => simp [containsD, keysD]
  | cons e m ih =>
    obtain ⟨ka, v⟩ := e
    by_cases h : ka = k
    · subst h; simp [containsD, keysD]
    · simp only [containsD, lookupD_cons, if_neg h, keysD, List.map_cons, List.mem_cons]
      have h2 : (lookupD m k).isSome = true ↔ k ∈ keysD m := ih
      rw [h2]
      constructor
      · intro h3; exact Or.inr h3
      · rintro (h3 | h3)
        · exact absurd h3.symm h
        · exact h3

theorem lookupD_eq_none_iff [DecidableEq α] {m : Dict α β} {k : α} :
    lookupD m k = none ↔ k ∉ keysD m := by
  rw [← containsD_iff_mem_keys, containsD]
  cases lookupD m k <;> simp

theorem lookupD_map_replace_ne [DecidableEq α] (m : Dict α β) (k : α) (v : β)
    {ka : α} (hka : ka ≠ k) :
    lookupD (m.map (fun kv => if kv.1 = k then (k, v) else kv)) ka = lookupD m ka := by
  induction m with
  | nil => simp
  | cons e m ih =>
    obtain ⟨kb, vb⟩ := e
    by_cases h1 : kb = k
    · subst h1
      simp [Ne.symm hka, ih]
    · simp only [List.map_cons, if_neg h1, lookupD_cons, ih]

theorem lookupD_map_replace_eq [DecidableEq α] {m : Dict α β} {k : α} (v : β)
    (hc : containsD m k = true) :
    lookupD (m.map (fun kv => if kv.1 = k then (k, v) else kv)) k = some v := by
  induction m with
  | nil => simp [containsD] at hc
  | cons e m ih =>
    obtain ⟨kb, vb⟩ := e
    by_cases h1 : kb = k
    · subst h1; simp
    · have hc2 : containsD m k = true := by
        simpa [containsD, h1] using hc
      simp [h1, ih hc2]

theorem lookupD_append [DecidableEq α] (m m2 : Dict α β) (k : α) :
    lookupD (m ++ m2) k = (lookupD m k).or (lookupD m2 k) := by
  induction m with
  | nil => simp
  | cons e m ih =>
    obtain ⟨kb, vb⟩ := e
    by_cases h1 : kb = k <;> simp [h1, ih]

theorem lookupD_setD [DecidableEq α] (m : Dict α β) (k : α) (v : β) (ka : α) :
    lookupD (setD m k v) ka = if ka = k then some v else lookupD m ka := by
  unfold setD
  by_cases hc : containsD m k
  · by_cases hka : ka = k
    · subst hka; simp [hc, lookupD_map_replace_eq v hc]
    · simp [hc, hka, lookupD_map_replace_ne m k v hka]
  · have hnone : lookupD m k = none := by
      cases hl : lookupD m k with
      | none => rfl
      | some v2 => simp [containsD, hl] at hc
    by_cases hka : ka = k
    · subst hka
      simp [hc, lookupD_append, hnone]
    · simp [hc, hka, lookupD_append, Ne.symm hka]

theorem containsD_cons [DecidableEq α] (ka : α) (v : β) (m : Dict α β) (k : α) :
    containsD ((ka, v) :: m) k = if ka = k then true else containsD m k := by
  by_cases h : ka = k <;> simp [containsD, h]

theorem eraseD_of_not_mem [DecidableEq α] {m : Dict α β} {k : α}
    (h : k ∉ keysD m) : eraseD m k = m := by
  induction m with
  | nil => rfl
  | cons e m ih =>
    obtain ⟨ka, va⟩ := e
    simp only [keysD, List.map_cons, List.mem_cons] at h
    push_neg at h
    simp [eraseD, List.filter_cons, Ne.symm h.1] at ih ⊢
    exact ih h.2

theorem replace_id_of_not_mem [DecidableEq α] {m : Dict α β} {k : α} (v : β)
    (h : k ∉ keysD m) :
    m.map (fun kv => if kv.1 = k then (k, v) else kv) = m := by
  induction m with
  | nil => rfl
  | cons e m ih =>
    obtain ⟨ka, va⟩ := e
    simp only [keysD, List.map_cons, List.mem_cons] at h
    push_neg at h
    simp [Ne.symm h.1, ih h.2]

theorem setD_self [DecidableEq α] {m : Dict α β} {k : α} {v : β}
    (hnd : (keysD m).Nodup) (h : (k, v) ∈ m) : setD m k v = m := by
  have hc : containsD m k = true := by
    simp [containsD, lookupD_of_mem hnd h]
  simp only [setD, hc, if_true]
  induction m with
  | nil => simp at h
  | cons e m ih =>
    obtain ⟨ka, va⟩ := e
    simp only [keysD, List.map_cons, List.nodup_cons] at hnd
    rcases List.mem_cons.1 h with h1 | h1
    · cases h1
      simp only [List.map_cons, if_pos rfl]
      rw [replace_id_of_not_mem v hnd.1]
      simp
    · have hka : ka ≠ k := by
        rintro rfl
        exact hnd.1 (List.mem_map.2 ⟨(ka, v), h1, rfl⟩)
      have hc2 : containsD m k = true := by
        simp [containsD, lookupD_of_mem hnd.2 h1]
      simp only [List.map_cons, if_neg hka]
      rw [ih hnd.2 h1 hc2]

theorem perm_cons_eraseD [DecidableEq α] {m : Dict α β} {k : α} {v : β}
    (hnd : (keysD m).Nodup) (h : (k, v) ∈ m) :
    m.Perm ((k, v) :: eraseD m k) := by
  induction m with
  | nil => simp at h
  | cons e m ih =>
    obtain ⟨ka, va⟩ := e
    simp only [keysD, List.map_cons, List.nodup_cons] at hnd
    rcases List.mem_cons.1 h with h1 | h1
    · cases h1
      have heq : eraseD ((k, v) :: m) k = m := by
        have h2 : eraseD ((k, v) :: m) k = eraseD m k := by
          simp [eraseD, List.filter_cons]
        rw [h2, eraseD_of_not_mem hnd.1]
      rw [heq]
    · have hka : ka ≠ k := by
        rintro rfl
        exact hnd.1 (List.mem_map.2 ⟨(ka, v), h1, rfl⟩)
      have heq : eraseD ((ka, va) :: m) k = (ka, va) :: eraseD m k := by
        simp [eraseD, List.filter_cons, hka]
      rw [heq]
      exact ((ih hnd.2 h1).cons _).trans (List.Perm.swap _ _ _)

theorem perm_setD [DecidableEq α] {m : Dict α β} {k : α} (v : β)
    (hnd : (keysD m).Nodup) (hc : containsD m k = true) :
    (setD m k v).Perm ((k, v) :: eraseD m k) := by
  induction m with
  | nil => simp [containsD] at hc
  | cons e m ih =>
    obtain ⟨ka, va⟩ := e
    simp only [keysD, List.map_cons, List.nodup_cons] at hnd
    by_cases hka : ka = k
    · subst hka
      have hset : setD ((ka, va) :: m) ka v = (ka, v) :: m := by
        simp only [setD, containsD_cons, if_pos rfl, List.map_cons]
        rw [replace_id_of_not_mem v hnd.1]
        simp
      have herase : eraseD ((ka, va) :: m) ka = m := by
        have h2 : eraseD ((ka, va) :: m) ka = eraseD m ka := by
          simp [eraseD, List.filter_cons]
        rw [h2, eraseD_of_not_mem hnd.1]
      rw [hset, herase]
    · have hc2 : containsD m k = true := by
        rw [containsD_cons, if_neg hka] at hc
        exact hc
      have hset : setD ((ka, va) :: m) k v = (ka, va) :: setD m k v := by
        simp only [setD, containsD_cons, if_neg hka, hc2, if_true, List.map_cons, if_neg hka]
      have herase : eraseD ((ka, va) :: m) k = (ka, va) :: eraseD m k := by
        simp [eraseD, List.filter_cons, hka]
      rw [hset, herase]
      exact ((ih hnd.2 hc2).cons _).trans (List.Perm.swap _ _ _)

theorem keysD_setD [DecidableEq α] (m : Dict α β) (k : α) (v : β) :
    keysD (setD m k v) = if containsD m k then keysD m else keysD m ++ [k] := by
  unfold setD
  by_cases hc : containsD m k
  · simp only [hc, if_true, keysD, List.map_map]
    apply List.map_congr_left
    intro kv _
    by_cases h : kv.1 = k <;> simp [h]
  · simp [hc, keysD]

theorem nodup_keysD_setD [DecidableEq α] {m : Dict α β} (k : α) (v : β)
    (hnd : (keysD m).Nodup) : (keysD (setD m k v)).Nodup := by
  rw [keysD_setD]
  by_cases hc : containsD m k
  · simpa [hc] using hnd
  · have hk : k ∉ keysD m := fun h => hc (containsD_iff_mem_keys.2 h)
    simp [hc, List.nodup_append, hnd, hk]

theorem eraseD_sublist [DecidableEq α] (m : Dict α β) (k : α) :
    (eraseD m k).Sublist m := List.filter_sublist m

theorem nodup_keysD_eraseD [DecidableEq α] {m : Dict α β} (k : α)
    (hnd : (keysD m).Nodup) : (keysD (eraseD m k)).Nodup :=
  hnd.sublist ((eraseD_sublist m k).map _)

theorem mem_setD [DecidableEq α] {m : Dict α β} {k : α} {v : β} {e : α × β}
    (h : e ∈ setD m k v) : e = (k, v) ∨ (e ∈ m ∧ e.1 ≠ k) := by
  unfold setD at h
  by_cases hc : containsD m k
  · rw [if_pos hc] at h
    obtain ⟨kv, hkv, hf⟩ := List.mem_map.1 h
    by_cases h1 : kv.1 = k
    · left; rw [if_pos h1] at hf; exact hf.symm
    · right; rw [if_neg h1] at hf; exact hf ▸ ⟨hkv, h1⟩
  · rw [if_neg hc] at h
    rcases List.mem_append.1 h with h1 | h1
    · right
      refine ⟨h1, fun hek => ?_⟩
      exact hc (containsD_iff_mem_keys.2 (hek ▸ List.mem_map.2 ⟨e, h1, rfl⟩))
    · left; simpa using h1

theorem mem_eraseD [DecidableEq α] {m : Dict α β} {k : α} {e : α × β}
    (h : e ∈ eraseD m k) : e ∈ m ∧ e.1 ≠ k := by
  have h2 := List.mem_filter.1 h
  exact ⟨h2.1, by simpa using h2.2⟩

theorem lookupD_eraseD [DecidableEq α] (m : Dict α β) (k : α) (ka : α) :
    lookupD (eraseD m k) ka = if ka = k then none else lookupD m ka := by
  induction m with
  | nil => simp [eraseD]
  | cons e m ih =>
    obtain ⟨kb, vb⟩ := e
    by_cases h1 : kb = k
    · subst h1
      have heq : eraseD ((kb, vb) :: m) kb = eraseD m kb := by
        simp [eraseD, List.filter_cons]
      rw [heq, ih]
      by_cases h2 : ka = kb
      · simp [h2]
      · simp [h2, Ne.symm h2]
    · have heq : eraseD ((kb, vb) :: m) k = (kb, vb) :: eraseD m k := by
        simp [eraseD, List.filter_cons, h1]
      rw [heq]
      by_cases h2 : kb = ka
      · subst h2
        simp [h1]
      · simp [h2, ih]

/-! ## Payload values and Python coercions -/

/-- Scalar JSON value as found in a request payload. -/
inductive JVal where
  | jnull
  | jbool (b : Bool)
  | jint (i : Int)
  | jnum (q : ℚ)
  | jstr (s : String)
deriving DecidableEq

/-- Python `str.strip()`: drop leading and trailing whitespace. -/
def pyStrip (s : String) : String :=
  ⟨((s.data.dropWhile Char.isWhitespace).reverse.dropWhile Char.isWhitespace).reverse⟩

/-- Python `str(value)` for payload scalars.  The exact text a float renders
to is immaterial to every claim (only emptiness after stripping matters, and
number renderings are never empty), so a number is rendered from the exact
rational that models it. -/
def pyStr : JVal → String
  | .jnull => "None"
  | .jbool true => "True"
  | .jbool false => "False"
  | .jint i => toString i
  | .jnum q => if q.den = 1 then toString q.num ++ ".0"
               else toString q.num ++ "/" ++ toString q.den
  | .jstr s => s

/-- Value of a run of decimal digits; `none` when empty or on a non-digit. -/
def digitsVal (cs : List Char) : Option Nat :=
  if cs = [] then none
  else if cs.all (·.isDigit) then
    some (cs.foldl (fun a c => 10 * a + (c.toNat - 48)) 0)
  else none

/-- Python `int(s)` on a string: optional sign around a digit run, with
surrounding whitespace allowed. -/
def parseIntStr (s : String) : Option Int :=
  match (pyStrip s).data with
  | '+' :: cs => (digitsVal cs).map (fun n => (n : Int))
  | '-' :: cs => (digitsVal cs).map (fun n => -(n : Int))
  | cs => (digitsVal cs).map (fun n => (n : Int))

/-- Value of an unsigned decimal float literal (digit forms with an optional
point; exponents, infinities and nan are outside the modelled fragment). -/
def parseUnsignedFloat (cs : List Char) : Option ℚ :=
  match cs.splitOn '.' with
  | [as] => (digitsVal as).map (fun n => (n : ℚ))
  | [[], []] => none
  | [[], bs] => (digitsVal bs).map (fun n => (n : ℚ) / 10 ^ bs.length)
  | [as, []] => (digitsVal as).map (fun n => (n : ℚ))
  | [as, bs] => do
    let i ← digitsVal as
    let f ← digitsVal bs
    pure ((i : ℚ) + (f : ℚ) / 10 ^ bs.length)
  | _ => none

/-- Python `float(s)` on a string. -/
def parseFloatStr (s : String) : Option ℚ :=
  match (pyStrip s).data with
  | '+' :: cs => parseUnsignedFloat cs
  | '-' :: cs => (parseUnsignedFloat cs).map (fun q => -q)
  | cs => parseUnsignedFloat cs

/-- Truncation toward zero, as Python `int(float)`. -/
def truncQ (q : ℚ) : Int := if q < 0 then -⌊-q⌋ else ⌊q⌋

/-- Python `int(value)`; `none` models `TypeError`/`ValueError`. -/
def pyInt : JVal → Option Int
  | .jnull => none
  | .jbool b => some (if b then 1 else 0)
  | .jint i => some i
  | .jnum q => some (truncQ q)
  | .jstr s => parseIntStr s

/-- Python `float(value)`; `none` models `TypeError`/`ValueError`. -/
def pyFloat : JVal → Option ℚ
  | .jnull => none
  | .jbool b => some (if b then 1 else 0)
  | .jint i => some (i : ℚ)
  | .jnum q => some q
  | .jstr s => parseFloatStr s

/-- Timestamp payload value, abstracting ISO-8601 parsing (request parsing is
an external collaborator per the spec): a falsy value (null or the empty
string) parses to the current time, a valid ISO string to its UTC instant,
anything else raises the `ValueError` that `_validate_payload` reports. -/
inductive TsIn where
  | falsy
  | iso (t : Int)
  | bad
deriving DecidableEq

/-! ## Data model and module state -/

/-- Stored transaction record (a value of the `transactions` dict). -/
structure Tx where
  id : Nat
  product_id : String
  product_name : Option String
  customer_id : String
  customer_name : Option String
  quantity : Int
  price : ℚ
  timestamp : Int
deriving DecidableEq

/-- Model of `_transaction_total`: `quantity * price`. -/
def total (tx : Tx) : ℚ := (tx.quantity : ℚ) * tx.price

/-- Module-level state of `app.py`: the record store, both aggregate
ledgers, both secondary indexes, and the id counter. -/
structure St where
  transactions : Dict Nat Tx
  product_totals : Dict String ℚ
  customer_totals : Dict String ℚ
  product_index : Dict String (List Nat)
  customer_index : Dict String (List Nat)
  next_id : Nat
deriving DecidableEq

/-- Initial module state. -/
def st0 : St := ⟨[], [], [], [], [], 1⟩

/-- Live records in creation order (`transactions.values()`). -/
def txList (st : St) : List Tx := st.transactions.map (·.2)

/-- Sum of `total` over the live records of one key group, computed from the
record set itself (the specification-side aggregate). -/
def groupSum (txs : Dict Nat Tx) (f : Tx → String) (k : String) : ℚ :=
  ((txs.filter (fun e => f e.2 = k)).map (fun e => total e.2)).sum

/-- Record ids of one key group, computed from the record set itself. -/
def groupIds (txs : Dict Nat Tx) (f : Tx → String) (k : String) : List Nat :=
  (txs.filter (fun e => f e.2 = k)).map (·.1)

/-! ## Validation (`_validate_payload`) -/

/-- Request payload: each field is absent or carries a JSON scalar. -/
structure Payload where
  product_id : Option JVal := none
  product_name : Option JVal := none
  customer_id : Option JVal := none
  customer_name : Option JVal := none
  quantity : Option JVal := none
  price : Option JVal := none
  timestamp : Option TsIn := none
deriving DecidableEq

/-- Output of `_validate_payload`: the normalized fields present in the
input. -/
structure Normalized where
  product_id : Option String
  product_name : Option (Option String)
  customer_id : Option String
  customer_name : Option (Option String)
  quantity : Option Int
  price : Option ℚ
  timestamp : Option Int
deriving DecidableEq

/-- Validation of `product_id`/`customer_id`: `require_field` plus
non-emptiness after stripping. -/
def valKey (field : String) (v : Option JVal) (part : Bool) :
    Option String × List String :=
  match v with
  | none => (none, if part then [] else [field ++ " is required"])
  | some w =>
    let s := pyStrip (pyStr w)
    if s = "" then (none, [field ++ " cannot be empty"]) else (some s, [])

/-- Validation of the optional name fields: stripped, empty becomes null. -/
def valName (v : Option JVal) : Option (Option String) :=
  v.map (fun w => let s := pyStrip (pyStr w); if s = "" then none else some s)

/-- Validation of `quantity`: `int(...)`, which must be positive. -/
def valQuantity (v : Option JVal) (part : Bool) : Option Int × List String :=
  match v with
  | none => (none, if part then [] else ["quantity is required"])
  | some w =>
    match pyInt w with
    | some q =>
      if q ≤ 0 then (none, ["quantity must be a positive integer"])
      else (some q, [])
    | none => (none, ["quantity must be a positive integer"])

/-- Validation of `price`: `float(...)`, which must be non-negative. -/
def valPrice (v : Option JVal) (part : Bool) : Option ℚ × List String :=
  match v with
  | none => (none, if part then [] else ["price is required"])
  | some w =>
    match pyFloat w with
    | some p =>
      if p < 0 then (none, ["price must be a non-negative number"])
      else (some p, [])
    | none => (none, ["price must be a non-negative number"])

/-- Validation of `timestamp` via `_parse_timestamp` (falsy means now). -/
def valTimestamp (v : Option TsIn) (now : Int) : Option Int × List String :=
  match v with
  | none => (none, [])
  | some .falsy => (some now, [])
  | some (.iso t) => (some t, [])
  | some .bad => (none, ["timestamp must be ISO 8601"])

/-- Model of `_validate_payload`: normalized fields plus the violation list,
in the order the code appends the messages. -/
def validatePayload (d : Payload) (part : Bool) (now : Int) :
    Normalized × List String :=
  let pid := valKey "product_id" d.product_id part
  let cid := valKey "customer_id" d.customer_id part
  let qty := valQuantity d.quantity part
  let prc := valPrice d.price part
  let ts := valTimestamp d.timestamp now
  (⟨pid.1, valName d.product_name, cid.1, valName d.customer_name,
    qty.1, prc.1, ts.1⟩,
   pid.2 ++ cid.2 ++ qty.2 ++ prc.2 ++ ts.2)

/-! ## The indexing protocol (`_index_transaction` / `_unindex_transaction`) -/

/-- Ledger half of `_index_transaction`:
`totals[k] = totals.get(k, 0.0) + t`. -/
def ledgerAdd (m : Dict String ℚ) (k : String) (t : ℚ) : Dict String ℚ :=
  setD m k ((lookupD m k).getD 0 + t)

/-- Ledger half of `_unindex_transaction`: subtract the total, then prune
the key when the stored value is `≤ 0`. -/
def ledgerSub (m : Dict String ℚ) (k : String) (t : ℚ) : Dict String ℚ :=
  let v := (lookupD m k).getD 0 - t
  if v ≤ 0 then eraseD m k else setD m k v

/-- Index half of `_index_transaction`:
`index.setdefault(k, set()).add(i)`. -/
def idxAdd (m : Dict String (List Nat)) (k : String) (i : Nat) :
    Dict String (List Nat) :=
  match lookupD m k with
  | none => m ++ [(k, [i])]
  | some s => setD m k (if i ∈ s then s else s ++ [i])

/-- Index half of `_unindex_transaction`: discard the id, drop the key when
its set becomes empty. -/
def idxSub (m : Dict String (List Nat)) (k : String) (i : Nat) :
    Dict String (List Nat) :=
  match lookupD m k with
  | none => m
  | some s =>
    let sa := s.filter (· ≠ i)
    if sa = [] then eraseD m k else setD m k sa

/-- Model of `_index_transaction`. -/
def indexTx (txId : Nat) (tx : Tx) (st : St) : St :=
  { st with
    product_index := idxAdd st.product_index tx.product_id txId
    customer_index := idxAdd st.customer_index tx.customer_id txId
    product_totals := ledgerAdd st.product_totals tx.product_id (total tx)
    customer_totals := ledgerAdd st.customer_totals tx.customer_id (total tx) }

/-- Model of `_unindex_transaction`. -/
def unindexTx (txId : Nat) (tx : Tx) (st : St) : St :=
  { st with
    product_index := idxSub st.product_index tx.product_id txId
    customer_index := idxSub st.customer_index tx.customer_id txId
    product_totals := ledgerSub st.product_totals tx.product_id (total tx)
    customer_totals := ledgerSub st.customer_totals tx.customer_id (total tx) }

/-! ## Endpoints -/

/-- Endpoint outcome (HTTP status and JSON body abstracted). -/
inductive Resp where
  | created (tx : Tx)
  | ok (tx : Tx)
  | notFound
  | badRequest (errors : List String)
deriving DecidableEq

/-- Record built by `create_transaction` from the validated payload (the
`tx = {...}` dict literal; a fresh record's timestamp defaults to now). -/
def buildTx (n : Normalized) (txId : Nat) (now : Int) : Tx :=
  { id := txId, product_id := n.product_id.getD "",
    product_name := n.product_name.getD none,
    customer_id := n.customer_id.getD "",
    customer_name := n.customer_name.getD none,
    quantity := n.quantity.getD 0, price := n.price.getD 0,
    timestamp := n.timestamp.getD now }

/-- Field merge of `update_transaction` (`tx.update({...})`): fields present
in the validated partial payload overwrite, absent fields keep the old
value; the id is untouched. -/
def applyPartial (n : Normalized) (tx : Tx) : Tx :=
  { id := tx.id,
    product_id := n.product_id.getD tx.product_id,
    product_name := n.product_name.getD tx.product_name,
    customer_id := n.customer_id.getD tx.customer_id,
    customer_name := n.customer_name.getD tx.customer_name,
    quantity := n.quantity.getD tx.quantity,
    price := n.price.getD tx.price,
    timestamp := n.timestamp.getD tx.timestamp }

/-- Model of `create_transaction` (POST /transactions). -/
def createTx (d : Payload) (now : Int) (st : St) : Resp × St :=
  let vres := validatePayload d false now
  if vres.2 ≠ [] then (.badRequest vres.2, st)
  else
    let txId := st.next_id
    let tx := buildTx vres.1 txId now
    let st1 := { st with
      next_id := st.next_id + 1
      transactions := setD st.transactions txId tx }
    (.created tx, indexTx txId tx st1)

/-- Model of `update_transaction` (PUT /transactions/id): unindex the old
record, merge the partial payload, reindex the new record. -/
def updateTx (txId : Nat) (d : Payload) (now : Int) (st : St) : Resp × St :=
  match lookupD st.transactions txId with
  | none => (.notFound, st)
  | some tx =>
    let vres := validatePayload d true now
    if vres.2 ≠ [] then (.badRequest vres.2, st)
    else
      let st1 := unindexTx txId tx st
      let tx1 := applyPartial vres.1 tx
      let st2 := { st1 with transactions := setD st1.transactions txId tx1 }
      (.ok tx1, indexTx txId tx1 st2)

/-- Model of `delete_transaction` (DELETE /transactions/id). -/
def deleteTx (txId : Nat) (st : St) : Resp × St :=
  match lookupD st.transactions txId with
  | none => (.notFound, st)
  | some tx =>
    (.ok tx, unindexTx txId tx { st with transactions := eraseD st.transactions txId })

/-- Truthiness of an optional string query parameter (`if product_id:`):
absent or empty means no filter. -/
def truthyParam : Option String → Option String
  | none => none
  | some s => if s = "" then none else some s

/-- Candidate-narrowing step of `_apply_filters`: product index set first,
intersected with the customer index set when both filters are given. -/
def candidateIds (pid cid : Option String) (st : St) : Option (List Nat) :=
  let c1 : Option (List Nat) :=
    match truthyParam pid with
    | some p => some ((lookupD st.product_index p).getD [])
    | none => none
  match truthyParam cid with
  | none => c1
  | some c =>
    let cs := (lookupD st.customer_index c).getD []
    match c1 with
    | none => some cs
    | some s => some (s.filter (· ∈ cs))

/-- Per-candidate predicate of `_apply_filters` (all `continue` guards
pass): inclusive date bounds and inclusive total bounds. -/
def keepTx (sd ed : Option Int) (mn mx : Option ℚ) (tx : Tx) : Bool :=
  (match sd with | none => true | some s => decide (s ≤ tx.timestamp)) &&
  (match ed with | none => true | some e => decide (tx.timestamp ≤ e)) &&
  (match mn with | none => true | some m => decide (m ≤ total tx)) &&
  (match mx with | none => true | some m => decide (total tx ≤ m))

/-- Model of `_apply_filters`. -/
def applyFilters (pid cid : Option String) (sd ed : Option Int)
    (mn mx : Option ℚ) (st : St) : List Tx :=
  let cands : List Tx :=
    match candidateIds pid cid st with
    | none => st.transactions.map (·.2)
    | some ids => ids.filterMap (fun i => lookupD st.transactions i)
  cands.filter (keepTx sd ed mn mx)

/-- Model of `list_transactions` (GET /transactions): the filtered count and
the requested page (`results[offset : offset + limit]`, negative offset
clamped to zero, negative or absent limit meaning no limit). -/
def listTransactions (pid cid : Option String) (sd ed : Option Int)
    (mn mx : Option ℚ) (limit : Option Int) (offset : Int) (st : St) :
    Nat × List Tx :=
  let results := applyFilters pid cid sd ed mn mx st
  let lim : Option Int :=
    match limit with
    | none => none
    | some l => if l < 0 then none else some l
  let off : Nat := offset.toNat
  let page :=
    match lim with
    | none => results.drop off
    | some l => (results.drop off).take l.toNat
  (results.length, page)

/-- Model of `top_customers` (GET /analytics/top-customers): an absent limit
defaults to 10; `heapq.nlargest` is sorting the customer ledger by total
descending and taking the first `limit` entries, paired with the returned
count. -/
def topCustomers (limit : Option Int) (st : St) :
    Except (List String) (List (String × ℚ) × Nat) :=
  let l := limit.getD 10
  if l ≤ 0 then .error ["limit must be positive"]
  else
    let top := (List.insertionSort (fun a b : String × ℚ => b.2 ≤ a.2)
      st.customer_totals).take l.toNat
    .ok (top, top.length)

/-- States reachable from the initial module state by any sequence of
create/update/delete requests. -/
inductive Reachable : St → Prop
  | init : Reachable st0
  | create (d : Payload) (now : Int) {st : St} :
      Reachable st → Reachable (createTx d now st).2
  | update (txId : Nat) (d : Payload) (now : Int) {st : St} :
      Reachable st → Reachable (updateTx txId d now st).2
  | delete (txId : Nat) {st : St} :
      Reachable st → Reachable (deleteTx txId st).2

/-! ## State invariant -/

theorem total_nonneg {tx : Tx} (hq : 0 < tx.quantity) (hp : 0 ≤ tx.price) :
    0 ≤ total tx :=
  mul_nonneg (by exact_mod_cast hq.le) hp

theorem groupSum_cons (i : Nat) (tx : Tx) (txs : Dict Nat Tx)
    (f : Tx → String) (k : String) :
    groupSum ((i, tx) :: txs) f k
      = (if f tx = k then total tx else 0) + groupSum txs f k := by
  by_cases h : f tx = k <;> simp [groupSum, List.filter_cons, h]

theorem groupIds_cons (i : Nat) (tx : Tx) (txs : Dict Nat Tx)
    (f : Tx → String) (k : String) :
    groupIds ((i, tx) :: txs) f k
      = (if f tx = k then [i] else []) ++ groupIds txs f k := by
  by_cases h : f tx = k <;> simp [groupIds, List.filter_cons, h]

theorem groupSum_append (txs : Dict Nat Tx) (i : Nat) (tx : Tx)
    (f : Tx → String) (k : String) :
    groupSum (txs ++ [(i, tx)]) f k
      = groupSum txs f k + (if f tx = k then total tx else 0) := by
  by_cases h : f tx = k <;>
    simp [groupSum, List.filter_append, List.filter_cons, h]

theorem groupIds_append (txs : Dict Nat Tx) (i : Nat) (tx : Tx)
    (f : Tx → String) (k : String) :
    groupIds (txs ++ [(i, tx)]) f k
      = groupIds txs f k ++ (if f tx = k then [i] else []) := by
  by_cases h : f tx = k <;>
    simp [groupIds, List.filter_append, List.filter_cons, h]

theorem groupSum_perm {txs txs2 : Dict Nat Tx} (h : txs.Perm txs2)
    (f : Tx → String) (k : String) : groupSum txs f k = groupSum txs2 f k :=
  List.Perm.sum_eq ((h.filter _).map _)

theorem groupIds_perm {txs txs2 : Dict Nat Tx} (h : txs.Perm txs2)
    (f : Tx → String) (k : String) :
    (groupIds txs f k).Perm (groupIds txs2 f k) :=
  (h.filter _).map _

theorem mem_groupIds {txs : Dict Nat Tx} {f : Tx → String} {k : String} {i : Nat} :
    i ∈ groupIds txs f k ↔ ∃ tx, (i, tx) ∈ txs ∧ f tx = k := by
  constructor
  · intro h
    obtain ⟨e, he, hei⟩ := List.mem_map.1 h
    obtain ⟨i2, tx2⟩ := e
    cases hei
    have h2 := List.mem_filter.1 he
    exact ⟨tx2, h2.1, by simpa using h2.2⟩
  · rintro ⟨tx, hmem, hk⟩
    exact List.mem_map.2 ⟨(i, tx), List.mem_filter.2 ⟨hmem, by simpa using hk⟩, rfl⟩

theorem groupSum_nonneg {txs : Dict Nat Tx} (h : ∀ e ∈ txs, 0 ≤ total e.2)
    (f : Tx → String) (k : String) : 0 ≤ groupSum txs f k := by
  apply List.sum_nonneg
  intro x hx
  obtain ⟨e, he, hex⟩ := List.mem_map.1 hx
  rw [← hex]
  exact h e (List.mem_filter.1 he).1

theorem not_mem_keysD_eraseD [DecidableEq α] (m : Dict α β) (k : α) :
    k ∉ keysD (eraseD m k) := by
  intro h
  obtain ⟨e, he, hek⟩ := List.mem_map.1 h
  exact (mem_eraseD he).2 hek

/-- Well-formedness of one stored binding: the record carries its key as
`id`, quantity is positive, price non-negative, and the key is below the id
counter. -/
def wfEntry (nid : Nat) (e : Nat × Tx) : Prop :=
  e.2.id = e.1 ∧ 0 < e.2.quantity ∧ 0 ≤ e.2.price ∧ e.1 < nid

/-- Ledger consistency: a present entry equals the group sum and an absent
key has group sum zero. -/
def ledgerInv (txs : Dict Nat Tx) (f : Tx → String) (m : Dict String ℚ) : Prop :=
  (∀ k v, lookupD m k = some v → v = groupSum txs f k) ∧
  (∀ k, lookupD m k = none → groupSum txs f k = 0)

/-- Index consistency: a present entry is a non-empty duplicate-free list
with the same members as the group's id set; an absent key has an empty
group. -/
def idxInv (txs : Dict Nat Tx) (f : Tx → String) (m : Dict String (List Nat)) : Prop :=
  (∀ k s, lookupD m k = some s →
    s ≠ [] ∧ s.Nodup ∧ ∀ i, i ∈ s ↔ i ∈ groupIds txs f k) ∧
  (∀ k, lookupD m k = none → groupIds txs f k = [])

/-- Full state invariant maintained by every request. -/
def Inv (st : St) : Prop :=
  (keysD st.transactions).Nodup ∧
  1 ≤ st.next_id ∧
  (∀ e ∈ st.transactions, wfEntry st.next_id e) ∧
  ledgerInv st.transactions (fun tx => tx.product_id) st.product_totals ∧
  ledgerInv st.transactions (fun tx => tx.customer_id) st.customer_totals ∧
  idxInv st.transactions (fun tx => tx.product_id) st.product_index ∧
  idxInv st.transactions (fun tx => tx.customer_id) st.customer_index

theorem ledgerInv_getD {txs : Dict Nat Tx} {f : Tx → String} {m : Dict String ℚ}
    (h : ledgerInv txs f m) (k : String) :
    (lookupD m k).getD 0 = groupSum txs f k := by
  cases hl : lookupD m k with
  | some v => simpa using h.1 k v hl
  | none => simpa using (h.2 k hl).symm

theorem ledgerInv_perm {txs txs2 : Dict Nat Tx} {f : Tx → String}
    {m : Dict String ℚ} (hp : txs.Perm txs2) (h : ledgerInv txs f m) :
    ledgerInv txs2 f m := by
  constructor
  · intro k v hv
    rw [← groupSum_perm hp f k]
    exact h.1 k v hv
  · intro k hv
    rw [← groupSum_perm hp f k]
    exact h.2 k hv

theorem idxInv_perm {txs txs2 : Dict Nat Tx} {f : Tx → String}
    {m : Dict String (List Nat)} (hp : txs.Perm txs2) (h : idxInv txs f m) :
    idxInv txs2 f m := by
  constructor
  · intro k s hs
    obtain ⟨h1, h2, h3⟩ := h.1 k s hs
    exact ⟨h1, h2, fun i => (h3 i).trans (groupIds_perm hp f k).mem_iff⟩
  · intro k hs
    have h2 := h.2 k hs
    rw [List.eq_nil_iff_forall_not_mem] at h2 ⊢
    intro i hi
    exact h2 i ((groupIds_perm hp f k).mem_iff.2 hi)

theorem ledgerInv_ledgerAdd {txs : Dict Nat Tx} {f : Tx → String}
    {m : Dict String ℚ} (h : ledgerInv txs f m) (i : Nat) (tx : Tx) :
    ledgerInv (txs ++ [(i, tx)]) f (ledgerAdd m (f tx) (total tx)) := by
  constructor
  · intro k v hv
    rw [ledgerAdd, lookupD_setD] at hv
    rw [groupSum_append]
    by_cases hfk : k = f tx
    · subst hfk
      rw [if_pos rfl] at hv
      rw [if_pos rfl]
      have hx := Option.some.inj hv
      rw [← hx, ledgerInv_getD h (f tx)]
    · rw [if_neg hfk] at hv
      rw [if_neg (fun h2 => hfk h2.symm), add_zero]
      exact h.1 k v hv
  · intro k hv
    rw [ledgerAdd, lookupD_setD] at hv
    by_cases hfk : k = f tx
    · rw [if_pos hfk] at hv
      simp at hv
    · rw [if_neg hfk] at hv
      rw [groupSum_append, if_neg (fun h2 => hfk h2.symm), add_zero]
      exact h.2 k hv

theorem ledgerInv_ledgerSub {txs : Dict Nat Tx} {f : Tx → String}
    {m : Dict String ℚ} {i : Nat} {tx : Tx}
    (hnd : (keysD txs).Nodup) (hwf : ∀ e ∈ txs, 0 ≤ total e.2)
    (hmem : (i, tx) ∈ txs) (h : ledgerInv txs f m) :
    ledgerInv (eraseD txs i) f (ledgerSub m (f tx) (total tx)) := by
  have hperm : txs.Perm ((i, tx) :: eraseD txs i) := perm_cons_eraseD hnd hmem
  have hdec : ∀ k, groupSum txs f k
      = (if f tx = k then total tx else 0) + groupSum (eraseD txs i) f k := by
    intro k
    rw [groupSum_perm hperm f k, groupSum_cons]
  have hdk : ∀ k, k ≠ f tx → groupSum (eraseD txs i) f k = groupSum txs f k := by
    intro k hk
    rw [hdec k, if_neg (fun h2 => hk h2.symm), zero_add]
  have hrest : ∀ k, 0 ≤ groupSum (eraseD txs i) f k :=
    fun k => groupSum_nonneg (fun e he => hwf e ((eraseD_sublist txs i).subset he)) f k
  have hsub : groupSum txs f (f tx) - total tx = groupSum (eraseD txs i) f (f tx) := by
    rw [hdec (f tx), if_pos rfl]
    ring
  have hgd : (lookupD m (f tx)).getD 0 = groupSum txs f (f tx) := ledgerInv_getD h (f tx)
  constructor
  · intro k v hv
    simp only [ledgerSub] at hv
    by_cases hle : (lookupD m (f tx)).getD 0 - total tx ≤ 0
    · rw [if_pos hle, lookupD_eraseD] at hv
      by_cases hfk : k = f tx
      · rw [if_pos hfk] at hv
        simp at hv
      · rw [if_neg hfk] at hv
        rw [hdk k hfk]
        exact h.1 k v hv
    · rw [if_neg hle, lookupD_setD] at hv
      by_cases hfk : k = f tx
      · subst hfk
        rw [if_pos rfl] at hv
        have hx := Option.some.inj hv
        rw [← hx, hgd, hsub]
      · rw [if_neg hfk] at hv
        rw [hdk k hfk]
        exact h.1 k v hv
  · intro k hv
    simp only [ledgerSub] at hv
    by_cases hle : (lookupD m (f tx)).getD 0 - total tx ≤ 0
    · rw [if_pos hle, lookupD_eraseD] at hv
      by_cases hfk : k = f tx
      · subst hfk
        rw [hgd] at hle
        have h1 : groupSum (eraseD txs i) f (f tx) ≤ 0 := by
          rw [← hsub]
          linarith
        exact le_antisymm h1 (hrest (f tx))
      · rw [if_neg hfk] at hv
        rw [hdk k hfk]
        exact h.2 k hv
    · rw [if_neg hle, lookupD_setD] at hv
      by_cases hfk : k = f tx
      · rw [if_pos hfk] at hv
        simp at hv
      · rw [if_neg hfk] at hv
        rw [hdk k hfk]
        exact h.2 k hv

theorem idxInv_idxAdd {txs : Dict Nat Tx} {f : Tx → String}
    {m : Dict String (List Nat)} {i : Nat} {tx : Tx}
    (hfresh : i ∉ keysD txs) (h : idxInv txs f m) :
    idxInv (txs ++ [(i, tx)]) f (idxAdd m (f tx) i) := by
  have hnotg : ∀ k, i ∉ groupIds txs f k := by
    intro k hk
    obtain ⟨tx2, hmem, _⟩ := mem_groupIds.1 hk
    exact hfresh (List.mem_map.2 ⟨(i, tx2), hmem, rfl⟩)
  have hgapp : ∀ k, k ≠ f tx → groupIds (txs ++ [(i, tx)]) f k = groupIds txs f k := by
    intro k hk
    rw [groupIds_append, if_neg (fun h2 => hk h2.symm), List.append_nil]
  have hgeq : groupIds (txs ++ [(i, tx)]) f (f tx) = groupIds txs f (f tx) ++ [i] := by
    rw [groupIds_append, if_pos rfl]
  cases hl : lookupD m (f tx) with
  | none =>
    have hadd : idxAdd m (f tx) i = m ++ [(f tx, [i])] := by
      simp [idxAdd, hl]
    have hempty : groupIds txs f (f tx) = [] := h.2 (f tx) hl
    constructor
    · intro k s hs
      rw [hadd, lookupD_append] at hs
      by_cases hfk : k = f tx
      · subst hfk
        rw [hl] at hs
        have hseq : s = [i] := by simpa using hs.symm
        subst hseq
        refine ⟨by simp, by simp, ?_⟩
        intro j
        rw [hgeq, hempty]
        simp
      · have hfk2 : f tx ≠ k := fun h3 => hfk h3.symm
        have h2 : lookupD [(f tx, [i])] k = none := by simp [hfk2]
        rw [h2, Option.or_none] at hs
        obtain ⟨ha, hb, hc⟩ := h.1 k s hs
        exact ⟨ha, hb, fun j => (hc j).trans (by rw [hgapp k hfk])⟩
    · intro k hs
      rw [hadd, lookupD_append] at hs
      by_cases hfk : k = f tx
      · subst hfk
        rw [hl] at hs
        simp at hs
      · have hfk2 : f tx ≠ k := fun h3 => hfk h3.symm
        have h2 : lookupD [(f tx, [i])] k = none := by simp [hfk2]
        rw [h2, Option.or_none] at hs
        rw [hgapp k hfk]
        exact h.2 k hs
  | some s0 =>
    obtain ⟨hne0, hnd0, hmem0⟩ := h.1 (f tx) s0 hl
    have hins : i ∉ s0 := fun hi => hnotg (f tx) ((hmem0 i).1 hi)
    have hadd : idxAdd m (f tx) i = setD m (f tx) (s0 ++ [i]) := by
      simp [idxAdd, hl, hins]
    constructor
    · intro k s hs
      rw [hadd, lookupD_setD] at hs
      by_cases hfk : k = f tx
      · subst hfk
        rw [if_pos rfl] at hs
        have hseq := Option.some.inj hs
        subst hseq
        refine ⟨by simp, ?_, ?_⟩
        · rw [List.nodup_append]
          exact ⟨hnd0, List.nodup_singleton i,
            fun a ha hai => hins ((List.mem_singleton.1 hai) ▸ ha)⟩
        · intro j
          rw [hgeq]
          simp only [List.mem_append, List.mem_singleton]
          exact or_congr (hmem0 j) Iff.rfl
      · rw [if_neg hfk] at hs
        obtain ⟨ha, hb, hc⟩ := h.1 k s hs
        exact ⟨ha, hb, fun j => (hc j).trans (by rw [hgapp k hfk])⟩
    · intro k hs
      rw [hadd, lookupD_setD] at hs
      by_cases hfk : k = f tx
      · rw [if_pos hfk] at hs
        simp at hs
      · rw [if_neg hfk] at hs
        rw [hgapp k hfk]
        exact h.2 k hs

theorem idxInv_idxSub {txs : Dict Nat Tx} {f : Tx → String}
    {m : Dict String (List Nat)} {i : Nat} {tx : Tx}
    (hnd : (keysD txs).Nodup) (hmem : (i, tx) ∈ txs) (h : idxInv txs f m) :
    idxInv (eraseD txs i) f (idxSub m (f tx) i) := by
  have hperm : txs.Perm ((i, tx) :: eraseD txs i) := perm_cons_eraseD hnd hmem
  have hdec : ∀ k j, j ∈ groupIds txs f k
      ↔ (j = i ∧ f tx = k) ∨ j ∈ groupIds (eraseD txs i) f k := by
    intro k j
    rw [(groupIds_perm hperm f k).mem_iff, groupIds_cons]
    by_cases hfk : f tx = k <;> simp [hfk]
  have hnotg : ∀ k, i ∉ groupIds (eraseD txs i) f k := by
    intro k hk
    obtain ⟨tx2, hmem2, _⟩ := mem_groupIds.1 hk
    exact not_mem_keysD_eraseD txs i (List.mem_map.2 ⟨(i, tx2), hmem2, rfl⟩)
  have hgne : ∀ k, k ≠ f tx →
      (∀ j, j ∈ groupIds (eraseD txs i) f k ↔ j ∈ groupIds txs f k) := by
    intro k hk j
    rw [hdec k j]
    constructor
    · intro hj
      exact Or.inr hj
    · rintro (⟨rfl, hf2⟩ | hj)
      · exact absurd hf2 (fun h2 => hk h2.symm)
      · exact hj
  cases hl : lookupD m (f tx) with
  | none =>
    exfalso
    have h2 := h.2 (f tx) hl
    rw [List.eq_nil_iff_forall_not_mem] at h2
    exact h2 i (mem_groupIds.2 ⟨tx, hmem, rfl⟩)
  | some s0 =>
    obtain ⟨hne0, hnd0, hmem0⟩ := h.1 (f tx) s0 hl
    have hmemiff : ∀ j, j ∈ s0.filter (· ≠ i)
        ↔ j ∈ groupIds (eraseD txs i) f (f tx) := by
      intro j
      rw [List.mem_filter]
      constructor
      · rintro ⟨hj, hji⟩
        rcases (hdec (f tx) j).1 ((hmem0 j).1 hj) with ⟨hji2, _⟩ | h2
        · rw [hji2] at hji
          simp at hji
        · exact h2
      · intro hj
        have hji : j ≠ i := fun h2 => hnotg (f tx) (h2 ▸ hj)
        exact ⟨(hmem0 j).2 ((hdec (f tx) j).2 (Or.inr hj)), by simpa using hji⟩
    by_cases hempty : s0.filter (· ≠ i) = []
    · have hsubeq : idxSub m (f tx) i = eraseD m (f tx) := by
        simp only [idxSub, hl]
        rw [if_pos hempty]
      constructor
      · intro k s hs
        rw [hsubeq, lookupD_eraseD] at hs
        by_cases hfk : k = f tx
        · rw [if_pos hfk] at hs
          simp at hs
        · rw [if_neg hfk] at hs
          obtain ⟨ha, hb, hc⟩ := h.1 k s hs
          exact ⟨ha, hb, fun j => (hc j).trans (hgne k hfk j).symm⟩
      · intro k hs
        rw [hsubeq, lookupD_eraseD] at hs
        by_cases hfk : k = f tx
        · subst hfk
          rw [List.eq_nil_iff_forall_not_mem]
          intro j hj
          have h2 := (hmemiff j).2 hj
          rw [hempty] at h2
          simp at h2
        · rw [if_neg hfk] at hs
          have h2 := h.2 k hs
          rw [List.eq_nil_iff_forall_not_mem] at h2 ⊢
          intro j hj
          exact h2 j ((hgne k hfk j).1 hj)
    · have hsubeq : idxSub m (f tx) i = setD m (f tx) (s0.filter (· ≠ i)) := by
        simp only [idxSub, hl]
        rw [if_neg hempty]
      constructor
      · intro k s hs
        rw [hsubeq, lookupD_setD] at hs
        by_cases hfk : k = f tx
        · subst hfk
          rw [if_pos rfl] at hs
          have hseq := Option.some.inj hs
          subst hseq
          exact ⟨hempty, hnd0.filter _, hmemiff⟩
        · rw [if_neg hfk] at hs
          obtain ⟨ha, hb, hc⟩ := h.1 k s hs
          exact ⟨ha, hb, fun j => (hc j).trans (hgne k hfk j).symm⟩
      · intro k hs
        rw [hsubeq, lookupD_setD] at hs
        by_cases hfk : k = f tx
        · rw [if_pos hfk] at hs
          simp at hs
        · rw [if_neg hfk] at hs
          have h2 := h.2 k hs
          rw [List.eq_nil_iff_forall_not_mem] at h2 ⊢
          intro j hj
          exact h2 j ((hgne k hfk j).1 hj)

/-! ## Validation success facts and endpoint shapes -/

theorem valQuantity_pos {v : Option JVal} {part : Bool} {q : Int}
    (h : (valQuantity v part).1 = some q) : 0 < q := by
  cases v with
  | none => simp [valQuantity] at h
  | some w =>
    cases hw : pyInt w with
    | none => simp [valQuantity, hw] at h
    | some q2 =>
      simp only [valQuantity, hw] at h
      by_cases hle : q2 ≤ 0
      · rw [if_pos hle] at h; simp at h
      · rw [if_neg hle] at h
        simp at h
        omega

theorem valQuantity_isSome_of_false {v : Option JVal}
    (h : (valQuantity v false).2 = []) : ∃ q, (valQuantity v false).1 = some q := by
  cases v with
  | none => simp [valQuantity] at h
  | some w =>
    cases hw : pyInt w with
    | none => simp [valQuantity, hw] at h
    | some q2 =>
      simp only [valQuantity, hw] at h ⊢
      by_cases hle : q2 ≤ 0
      · rw [if_pos hle] at h; simp at h
      · rw [if_neg hle]
        exact ⟨q2, rfl⟩

theorem valPrice_nonneg {v : Option JVal} {part : Bool} {p : ℚ}
    (h : (valPrice v part).1 = some p) : 0 ≤ p := by
  cases v with
  | none => simp [valPrice] at h
  | some w =>
    cases hw : pyFloat w with
    | none => simp [valPrice, hw] at h
    | some p2 =>
      simp only [valPrice, hw] at h
      by_cases hlt : p2 < 0
      · rw [if_pos hlt] at h; simp at h
      · rw [if_neg hlt] at h
        simp at h
        rw [← h]
        exact le_of_not_lt hlt

theorem valPrice_isSome_of_false {v : Option JVal}
    (h : (valPrice v false).2 = []) : ∃ p, (valPrice v false).1 = some p := by
  cases v with
  | none => simp [valPrice] at h
  | some w =>
    cases hw : pyFloat w with
    | none => simp [valPrice, hw] at h
    | some p2 =>
      simp only [valPrice, hw] at h ⊢
      by_cases hlt : p2 < 0
      · rw [if_pos hlt] at h; simp at h
      · rw [if_neg hlt]
        exact ⟨p2, rfl⟩

theorem validate_errors_nil {d : Payload} {part : Bool} {now : Int}
    (h : (validatePayload d part now).2 = []) :
    (valKey "product_id" d.product_id part).2 = [] ∧
    (valKey "customer_id" d.customer_id part).2 = [] ∧
    (valQuantity d.quantity part).2 = [] ∧
    (valPrice d.price part).2 = [] ∧
    (valTimestamp d.timestamp now).2 = [] := by
  simp only [validatePayload] at h
  simpa [List.append_eq_nil] using h

theorem createTx_of_invalid {d : Payload} {now : Int} (st : St)
    (he : (validatePayload d false now).2 ≠ []) :
    createTx d now st = (.badRequest (validatePayload d false now).2, st) := by
  simp only [createTx]
  rw [if_pos he]

theorem createTx_of_valid {d : Payload} {now : Int} (st : St)
    (he : (validatePayload d false now).2 = []) :
    createTx d now st =
      (.created (buildTx (validatePayload d false now).1 st.next_id now),
       indexTx st.next_id (buildTx (validatePayload d false now).1 st.next_id now)
         { st with
           next_id := st.next_id + 1
           transactions := setD st.transactions st.next_id
             (buildTx (validatePayload d false now).1 st.next_id now) }) := by
  simp only [createTx]
  rw [if_neg (by simp [he])]

theorem updateTx_not_found {txId : Nat} {d : Payload} {now : Int} {st : St}
    (h : lookupD st.transactions txId = none) :
    updateTx txId d now st = (.notFound, st) := by
  simp only [updateTx, h]

theorem updateTx_of_invalid {txId : Nat} {d : Payload} {now : Int} {st : St}
    {tx : Tx} (h : lookupD st.transactions txId = some tx)
    (he : (validatePayload d true now).2 ≠ []) :
    updateTx txId d now st = (.badRequest (validatePayload d true now).2, st) := by
  simp only [updateTx, h]
  rw [if_pos he]

theorem updateTx_of_valid {txId : Nat} {d : Payload} {now : Int} {st : St}
    {tx : Tx} (h : lookupD st.transactions txId = some tx)
    (he : (validatePayload d true now).2 = []) :
    updateTx txId d now st =
      (.ok (applyPartial (validatePayload d true now).1 tx),
       indexTx txId (applyPartial (validatePayload d true now).1 tx)
         { unindexTx txId tx st with
           transactions := setD st.transactions txId
             (applyPartial (validatePayload d true now).1 tx) }) := by
  simp only [updateTx, h]
  rw [if_neg (by simp [he])]
  rfl

theorem deleteTx_not_found {txId : Nat} {st : St}
    (h : lookupD st.transactions txId = none) :
    deleteTx txId st = (.notFound, st) := by
  simp only [deleteTx, h]

theorem deleteTx_of_found {txId : Nat} {st : St} {tx : Tx}
    (h : lookupD st.transactions txId = some tx) :
    deleteTx txId st =
      (.ok tx, unindexTx txId tx { st with transactions := eraseD st.transactions txId }) := by
  simp only [deleteTx, h]

/-! ## Invariant preservation -/

theorem wfEntry_mono {nid nid2 : Nat} (h : nid ≤ nid2) {e : Nat × Tx}
    (hw : wfEntry nid e) : wfEntry nid2 e :=
  ⟨hw.1, hw.2.1, hw.2.2.1, lt_of_lt_of_le hw.2.2.2 h⟩

theorem inv_st0 : Inv st0 := by
  refine ⟨by simp [st0, keysD], by simp [st0], ?_, ?_, ?_, ?_, ?_⟩
  · intro e he
    simp [st0] at he
  · exact ⟨fun k v hv => by simp [st0] at hv, fun k _ => by simp [st0, groupSum]⟩
  · exact ⟨fun k v hv => by simp [st0] at hv, fun k _ => by simp [st0, groupSum]⟩
  · exact ⟨fun k s hs => by simp [st0] at hs, fun k _ => by simp [st0, groupIds]⟩
  · exact ⟨fun k s hs => by simp [st0] at hs, fun k _ => by simp [st0, groupIds]⟩

theorem inv_insert {st : St} (h : Inv st) (tx : Tx)
    (hq : 0 < tx.quantity) (hp : 0 ≤ tx.price) (hid : tx.id = st.next_id) :
    Inv (indexTx st.next_id tx
      { st with
        next_id := st.next_id + 1
        transactions := setD st.transactions st.next_id tx }) := by
  obtain ⟨hnd, hn1, hwf, hlp, hlc, hip, hic⟩ := h
  have hfresh : st.next_id ∉ keysD st.transactions := by
    intro hk
    obtain ⟨e, hmem, hke⟩ := List.mem_map.1 hk
    have h2 := (hwf e hmem).2.2.2
    rw [hke] at h2
    exact lt_irrefl _ h2
  have hcf : containsD st.transactions st.next_id = false := by
    rw [containsD, lookupD_eq_none_iff.2 hfresh]
    rfl
  have hset : setD st.transactions st.next_id tx
      = st.transactions ++ [(st.next_id, tx)] := by
    simp [setD, hcf]
  refine ⟨?_, ?_, ?_, ?_, ?_, ?_, ?_⟩
  · show (keysD (setD st.transactions st.next_id tx)).Nodup
    rw [hset]
    simp only [keysD, List.map_append, List.map_cons, List.map_nil]
    rw [List.nodup_append]
    refine ⟨hnd, List.nodup_singleton _, ?_⟩
    intro a ha hb
    rw [List.mem_singleton] at hb
    rw [hb] at ha
    exact hfresh ha
  · show 1 ≤ st.next_id + 1
    omega
  · intro e he
    have he2 : e ∈ setD st.transactions st.next_id tx := he
    rw [hset] at he2
    show wfEntry (st.next_id + 1) e
    rcases List.mem_append.1 he2 with h1 | h1
    · exact wfEntry_mono (Nat.le_succ _) (hwf e h1)
    · rw [List.mem_singleton] at h1
      subst h1
      exact ⟨hid, hq, hp, Nat.lt_succ_self _⟩
  · show ledgerInv (setD st.transactions st.next_id tx) (fun t => t.product_id)
      (ledgerAdd st.product_totals tx.product_id (total tx))
    rw [hset]
    exact ledgerInv_ledgerAdd hlp st.next_id tx
  · show ledgerInv (setD st.transactions st.next_id tx) (fun t => t.customer_id)
      (ledgerAdd st.customer_totals tx.customer_id (total tx))
    rw [hset]
    exact ledgerInv_ledgerAdd hlc st.next_id tx
  · show idxInv (setD st.transactions st.next_id tx) (fun t => t.product_id)
      (idxAdd st.product_index tx.product_id st.next_id)
    rw [hset]
    exact idxInv_idxAdd hfresh hip
  · show idxInv (setD st.transactions st.next_id tx) (fun t => t.customer_id)
      (idxAdd st.customer_index tx.customer_id st.next_id)
    rw [hset]
    exact idxInv_idxAdd hfresh hic

theorem inv_remove {st : St} (h : Inv st) {txId : Nat} {tx : Tx}
    (hl : lookupD st.transactions txId = some tx) :
    Inv (unindexTx txId tx { st with transactions := eraseD st.transactions txId }) := by
  obtain ⟨hnd, hn1, hwf, hlp, hlc, hip, hic⟩ := h
  have hmem : (txId, tx) ∈ st.transactions := mem_of_lookupD hl
  have hwf2 : ∀ e ∈ st.transactions, 0 ≤ total e.2 :=
    fun e he => total_nonneg (hwf e he).2.1 (hwf e he).2.2.1
  refine ⟨?_, ?_, ?_, ?_, ?_, ?_, ?_⟩
  · show (keysD (eraseD st.transactions txId)).Nodup
    exact nodup_keysD_eraseD txId hnd
  · exact hn1
  · intro e he
    have he2 : e ∈ eraseD st.transactions txId := he
    exact hwf e (mem_eraseD he2).1
  · show ledgerInv (eraseD st.transactions txId) (fun t => t.product_id)
      (ledgerSub st.product_totals tx.product_id (total tx))
    exact ledgerInv_ledgerSub hnd hwf2 hmem hlp
  · show ledgerInv (eraseD st.transactions txId) (fun t => t.customer_id)
      (ledgerSub st.customer_totals tx.customer_id (total tx))
    exact ledgerInv_ledgerSub hnd hwf2 hmem hlc
  · show idxInv (eraseD st.transactions txId) (fun t => t.product_id)
      (idxSub st.product_index tx.product_id txId)
    exact idxInv_idxSub hnd hmem hip
  · show idxInv (eraseD st.transactions txId) (fun t => t.customer_id)
      (idxSub st.customer_index tx.customer_id txId)
    exact idxInv_idxSub hnd hmem hic

theorem inv_replace {st : St} (h : Inv st) {txId : Nat} {tx : Tx} (tx1 : Tx)
    (hl : lookupD st.transactions txId = some tx)
    (hq : 0 < tx1.quantity) (hp : 0 ≤ tx1.price) (hid : tx1.id = txId) :
    Inv (indexTx txId tx1
      { unindexTx txId tx st with
        transactions := setD st.transactions txId tx1 }) := by
  obtain ⟨hnd, hn1, hwf, hlp, hlc, hip, hic⟩ := h
  have hmem : (txId, tx) ∈ st.transactions := mem_of_lookupD hl
  have hwf2 : ∀ e ∈ st.transactions, 0 ≤ total e.2 :=
    fun e he => total_nonneg (hwf e he).2.1 (hwf e he).2.2.1
  have hcont : containsD st.transactions txId = true := by
    rw [containsD, hl]
    rfl
  have hperm : (eraseD st.transactions txId ++ [(txId, tx1)]).Perm
      (setD st.transactions txId tx1) :=
    (List.perm_append_singleton _ _).trans (perm_setD tx1 hnd hcont).symm
  have hfresh2 : txId ∉ keysD (eraseD st.transactions txId) :=
    not_mem_keysD_eraseD st.transactions txId
  refine ⟨?_, ?_, ?_, ?_, ?_, ?_, ?_⟩
  · show (keysD (setD st.transactions txId tx1)).Nodup
    exact nodup_keysD_setD txId tx1 hnd
  · exact hn1
  · intro e he
    have he2 : e ∈ setD st.transactions txId tx1 := he
    show wfEntry st.next_id e
    rcases mem_setD he2 with h1 | ⟨h1, _⟩
    · subst h1
      exact ⟨hid, hq, hp, (hwf (txId, tx) hmem).2.2.2⟩
    · exact hwf e h1
  · show ledgerInv (setD st.transactions txId tx1) (fun t => t.product_id)
      (ledgerAdd (ledgerSub st.product_totals tx.product_id (total tx))
        tx1.product_id (total tx1))
    exact ledgerInv_perm hperm
      (ledgerInv_ledgerAdd (ledgerInv_ledgerSub hnd hwf2 hmem hlp) txId tx1)
  · show ledgerInv (setD st.transactions txId tx1) (fun t => t.customer_id)
      (ledgerAdd (ledgerSub st.customer_totals tx.customer_id (total tx))
        tx1.customer_id (total tx1))
    exact ledgerInv_perm hperm
      (ledgerInv_ledgerAdd (ledgerInv_ledgerSub hnd hwf2 hmem hlc) txId tx1)
  · show idxInv (setD st.transactions txId tx1) (fun t => t.product_id)
      (idxAdd (idxSub st.product_index tx.product_id txId) tx1.product_id txId)
    exact idxInv_perm hperm (idxInv_idxAdd hfresh2 (idxInv_idxSub hnd hmem hip))
  · show idxInv (setD st.transactions txId tx1) (fun t => t.customer_id)
      (idxAdd (idxSub st.customer_index tx.customer_id txId) tx1.customer_id txId)
    exact idxInv_perm hperm (idxInv_idxAdd hfresh2 (idxInv_idxSub hnd hmem hic))

theorem inv_createTx {st : St} (h : Inv st) (d : Payload) (now : Int) :
    Inv (createTx d now st).2 := by
  by_cases he : (validatePayload d false now).2 = []
  · rw [createTx_of_valid st he]
    obtain ⟨hek, hec, heq, hep, het⟩ := validate_errors_nil he
    obtain ⟨q, hq⟩ := valQuantity_isSome_of_false heq
    obtain ⟨p, hp⟩ := valPrice_isSome_of_false hep
    have hq2 : (validatePayload d false now).1.quantity = some q := hq
    have hp2 : (validatePayload d false now).1.price = some p := hp
    apply inv_insert h
    · show 0 < ((validatePayload d false now).1.quantity.getD 0)
      rw [hq2, Option.getD_some]
      exact valQuantity_pos hq
    · show 0 ≤ ((validatePayload d false now).1.price.getD 0)
      rw [hp2, Option.getD_some]
      exact valPrice_nonneg hp
    · rfl
  · rw [createTx_of_invalid st he]
    exact h

theorem inv_updateTx {st : St} (h : Inv st) (txId : Nat) (d : Payload) (now : Int) :
    Inv (updateTx txId d now st).2 := by
  cases hl : lookupD st.transactions txId with
  | none =>
    rw [updateTx_not_found hl]
    exact h
  | some tx =>
    by_cases he : (validatePayload d true now).2 = []
    · rw [updateTx_of_valid hl he]
      have hwfold := h.2.2.1 (txId, tx) (mem_of_lookupD hl)
      apply inv_replace h _ hl
      · show 0 < ((validatePayload d true now).1.quantity.getD tx.quantity)
        cases hnq : (validatePayload d true now).1.quantity with
        | none =>
          rw [Option.getD_none]
          exact hwfold.2.1
        | some q =>
          rw [Option.getD_some]
          exact valQuantity_pos hnq
      · show 0 ≤ ((validatePayload d true now).1.price.getD tx.price)
        cases hnp : (validatePayload d true now).1.price with
        | none =>
          rw [Option.getD_none]
          exact hwfold.2.2.1
        | some p =>
          rw [Option.getD_some]
          exact valPrice_nonneg hnp
      · exact hwfold.1
    · rw [updateTx_of_invalid hl he]
      exact h

theorem inv_deleteTx {st : St} (h : Inv st) (txId : Nat) :
    Inv (deleteTx txId st).2 := by
  cases hl : lookupD st.transactions txId with
  | none =>
    rw [deleteTx_not_found hl]
    exact h
  | some tx =>
    rw [deleteTx_of_found hl]
    exact inv_remove h hl

/-- Every reachable state satisfies the full invariant. -/
theorem reachable_inv {st : St} (h : Reachable st) : Inv st := by
  induction h with
  | init => exact inv_st0
  | create d now hr ih => exact inv_createTx ih d now
  | update txId d now hr ih => exact inv_updateTx ih txId d now
  | delete txId hr ih => exact inv_deleteTx ih txId

/-! ## Helper facts for the round-trip analysis -/

theorem idxInv_mem_entry {txs : Dict Nat Tx} {f : Tx → String}
    {m : Dict String (List Nat)} {i : Nat} {tx : Tx}
    (hinv : idxInv txs f m) (hmem : (i, tx) ∈ txs) :
    ∃ s0, lookupD m (f tx) = some s0 ∧ i ∈ s0 := by
  cases hl : lookupD m (f tx) with
  | none =>
    exfalso
    have h2 := hinv.2 (f tx) hl
    rw [List.eq_nil_iff_forall_not_mem] at h2
    exact h2 i (mem_groupIds.2 ⟨tx, hmem, rfl⟩)
  | some s0 =>
    exact ⟨s0, rfl, ((hinv.1 (f tx) s0 hl).2.2 i).2 (mem_groupIds.2 ⟨tx, hmem, rfl⟩)⟩

/-- Unindexing then reindexing the same id at the same key leaves the index
unchanged as a key-to-member-set map. -/
theorem idx_sub_add_same {m : Dict String (List Nat)} {p : String} {i : Nat}
    {s0 : List Nat} (hl : lookupD m p = some s0) (hi : i ∈ s0) (k : String) :
    (lookupD (idxAdd (idxSub m p i) p i) k).isSome = (lookupD m k).isSome ∧
    ∀ j, j ∈ (lookupD (idxAdd (idxSub m p i) p i) k).getD []
        ↔ j ∈ (lookupD m k).getD [] := by
  have hsub : idxSub m p i
      = (if s0.filter (· ≠ i) = [] then eraseD m p else setD m p (s0.filter (· ≠ i))) := by
    simp only [idxSub, hl]
  by_cases hempty : s0.filter (· ≠ i) = []
  · have hall : ∀ j ∈ s0, j = i := by
      intro j hj
      by_contra hji
      have : j ∈ s0.filter (· ≠ i) := List.mem_filter.2 ⟨hj, by simpa using hji⟩
      rw [hempty] at this
      simp at this
    rw [hsub, if_pos hempty]
    have herase : lookupD (eraseD m p) p = none := by
      rw [lookupD_eraseD, if_pos rfl]
    have hadd : idxAdd (eraseD m p) p i = eraseD m p ++ [(p, [i])] := by
      simp only [idxAdd, herase]
    rw [hadd, lookupD_append]
    by_cases hkp : k = p
    · subst hkp
      have hsingle : lookupD [(k, [i])] k = some [i] := by
        rw [lookupD_cons, if_pos rfl]
      rw [herase, hl, hsingle]
      constructor
      · rfl
      · intro j
        show j ∈ ([i] : List Nat) ↔ j ∈ s0
        constructor
        · intro hj
          rw [List.mem_singleton] at hj
          subst hj
          exact hi
        · intro hj
          rw [List.mem_singleton]
          exact hall j hj
    · have hkp2 : p ≠ k := fun h2 => hkp h2.symm
      have hk2 : lookupD [(p, [i])] k = none := by simp [hkp2]
      rw [hk2, Option.or_none, lookupD_eraseD, if_neg hkp]
      exact ⟨rfl, fun j => Iff.rfl⟩
  · rw [hsub, if_neg hempty]
    have hlk : lookupD (setD m p (s0.filter (· ≠ i))) p = some (s0.filter (· ≠ i)) := by
      rw [lookupD_setD, if_pos rfl]
    have hni : i ∉ s0.filter (· ≠ i) := by
      intro hmem2
      simpa using (List.mem_filter.1 hmem2).2
    have hadd : idxAdd (setD m p (s0.filter (· ≠ i))) p i
        = setD (setD m p (s0.filter (· ≠ i))) p (s0.filter (· ≠ i) ++ [i]) := by
      simp only [idxAdd, hlk, if_neg hni]
    rw [hadd, lookupD_setD]
    by_cases hkp : k = p
    · subst hkp
      rw [if_pos rfl, hl]
      refine ⟨rfl, fun j => ?_⟩
      simp only [Option.getD_some, List.mem_append, List.mem_filter, List.mem_singleton]
      constructor
      · rintro (⟨hj, _⟩ | rfl)
        · exact hj
        · exact hi
      · intro hj
        by_cases hji : j = i
        · exact Or.inr hji
        · exact Or.inl ⟨hj, by simpa using hji⟩
    · rw [if_neg hkp, lookupD_setD, if_neg hkp]
      exact ⟨rfl, fun j => Iff.rfl⟩

/-- Subtracting then re-adding a positive total at one ledger key leaves the
ledger unchanged, provided the key's entry was at least that total. -/
theorem ledger_sub_add_same {m : Dict String ℚ} {p : String} {t S : ℚ}
    (hl : lookupD m p = some S) (ht : 0 < t) (hS : 0 ≤ S - t) (k : String) :
    lookupD (ledgerAdd (ledgerSub m p t) p t) k = lookupD m k := by
  have hgd : (lookupD m p).getD 0 = S := by rw [hl]; rfl
  by_cases hle : (lookupD m p).getD 0 - t ≤ 0
  · have hS0 : S - t = 0 := le_antisymm (by rw [hgd] at hle; exact hle) hS
    have hsub : ledgerSub m p t = eraseD m p := by
      simp only [ledgerSub]
      rw [if_pos hle]
    have herase : lookupD (eraseD m p) p = none := by
      rw [lookupD_eraseD, if_pos rfl]
    rw [hsub, ledgerAdd, herase, lookupD_setD]
    by_cases hkp : k = p
    · subst hkp
      rw [if_pos rfl, hl]
      have : S = t := by linarith
      simp [this]
    · rw [if_neg hkp, lookupD_eraseD, if_neg hkp]
  · have hsub : ledgerSub m p t = setD m p ((lookupD m p).getD 0 - t) := by
      simp only [ledgerSub]
      rw [if_neg hle]
    have hlk : lookupD (setD m p ((lookupD m p).getD 0 - t)) p
        = some ((lookupD m p).getD 0 - t) := by
      rw [lookupD_setD, if_pos rfl]
    rw [hsub, ledgerAdd, hlk, lookupD_setD]
    by_cases hkp : k = p
    · subst hkp
      rw [if_pos rfl, hl]
      simp only [Option.getD_some]
      have hst : S - t + t = S := by ring
      rw [hst]
    · rw [if_neg hkp, lookupD_setD, if_neg hkp]

/-! ## Claims -/

/-- C1 (amended).  Aggregate ledger invariant, as the code maintains it:
after every sequence of create/update/delete operations, every entry present
in the product ledger equals exactly the sum of quantity*price over the live
records with that product id, and an absent product id has group sum 0 (so a
positive sum is always present); symmetrically for the customer ledger.
The original direction "sum ≤ 0 implies absent" fails: indexing never
prunes, so a zero-total create leaves a present zero entry. -/
theorem c1_aggregate_ledger {st : St} (h : Reachable st) :
    (∀ p v, lookupD st.product_totals p = some v
        → v = groupSum st.transactions (fun tx => tx.product_id) p) ∧
    (∀ p, lookupD st.product_totals p = none
        → groupSum st.transactions (fun tx => tx.product_id) p = 0) ∧
    (∀ c v, lookupD st.customer_totals c = some v
        → v = groupSum st.transactions (fun tx => tx.customer_id) c) ∧
    (∀ c, lookupD st.customer_totals c = none
        → groupSum st.transactions (fun tx => tx.customer_id) c = 0) := by
  obtain ⟨-, -, -, hlp, hlc, -, -⟩ := reachable_inv h
  exact ⟨hlp.1, hlp.2, hlc.1, hlc.2⟩

/-- C2.  Secondary index invariant: after every sequence of operations, the
product index's entry for a product id, when present, is a non-empty
duplicate-free id list with exactly the ids of live records carrying that
product id, and an absent key has no matching live record; symmetrically for
the customer index. -/
theorem c2_secondary_index {st : St} (h : Reachable st) :
    (∀ p s, lookupD st.product_index p = some s →
        s ≠ [] ∧ s.Nodup ∧
        ∀ i, i ∈ s ↔ i ∈ groupIds st.transactions (fun tx => tx.product_id) p) ∧
    (∀ p, lookupD st.product_index p = none →
        groupIds st.transactions (fun tx => tx.product_id) p = []) ∧
    (∀ c s, lookupD st.customer_index c = some s →
        s ≠ [] ∧ s.Nodup ∧
        ∀ i, i ∈ s ↔ i ∈ groupIds st.transactions (fun tx => tx.customer_id) c) ∧
    (∀ c, lookupD st.customer_index c = none →
        groupIds st.transactions (fun tx => tx.customer_id) c = []) := by
  obtain ⟨-, -, -, -, -, hip, hic⟩ := reachable_inv h
  exact ⟨hip.1, hip.2, hic.1, hic.2⟩

/-- C3.  Error atomicity: update and delete on an absent id return the
not-found response and leave the whole state (records, ledgers, indexes,
counter) unchanged, and an update whose partial payload fails validation
returns the violation list and likewise changes nothing. -/
theorem c3_error_atomicity (st : St) (txId : Nat) (d : Payload) (now : Int) :
    (lookupD st.transactions txId = none →
      updateTx txId d now st = (.notFound, st) ∧
      deleteTx txId st = (.notFound, st)) ∧
    (∀ tx, lookupD st.transactions txId = some tx →
      (validatePayload d true now).2 ≠ [] →
      updateTx txId d now st = (.badRequest (validatePayload d true now).2, st)) := by
  constructor
  · intro hnone
    exact ⟨updateTx_not_found hnone, deleteTx_not_found hnone⟩
  · intro tx hsome he
    exact updateTx_of_invalid hsome he

/-- C4 (amended).  Update round-trip: updating a live record with an empty
partial payload returns the record unchanged and leaves the record set, the
id counter, and both secondary indexes (as key-to-member-set maps)
unchanged; both aggregate ledgers are also left unchanged whenever the
record's total is positive.  (For a zero-total record the unindex-then-index
pair can re-materialize a pruned zero ledger entry — see the
counterexample — so unconditional ledger preservation fails.) -/
theorem c4_update_roundtrip {st : St} (h : Reachable st) {txId : Nat} {tx : Tx}
    (hl : lookupD st.transactions txId = some tx) (now : Int) :
    (updateTx txId {} now st).1 = .ok tx ∧
    (updateTx txId {} now st).2.transactions = st.transactions ∧
    (updateTx txId {} now st).2.next_id = st.next_id ∧
    (∀ k, (lookupD (updateTx txId {} now st).2.product_index k).isSome
        = (lookupD st.product_index k).isSome) ∧
    (∀ k j, j ∈ (lookupD (updateTx txId {} now st).2.product_index k).getD []
        ↔ j ∈ (lookupD st.product_index k).getD []) ∧
    (∀ k, (lookupD (updateTx txId {} now st).2.customer_index k).isSome
        = (lookupD st.customer_index k).isSome) ∧
    (∀ k j, j ∈ (lookupD (updateTx txId {} now st).2.customer_index k).getD []
        ↔ j ∈ (lookupD st.customer_index k).getD []) ∧
    (0 < total tx →
      (∀ k, lookupD (updateTx txId {} now st).2.product_totals k
          = lookupD st.product_totals k) ∧
      (∀ k, lookupD (updateTx txId {} now st).2.customer_totals k
          = lookupD st.customer_totals k)) := by
  obtain ⟨hnd, hn1, hwf, hlp, hlc, hip, hic⟩ := reachable_inv h
  have hmem : (txId, tx) ∈ st.transactions := mem_of_lookupD hl
  have hwf2 : ∀ e ∈ st.transactions, 0 ≤ total e.2 :=
    fun e he => total_nonneg (hwf e he).2.1 (hwf e he).2.2.1
  have he : (validatePayload {} true now).2 = [] := rfl
  have happ : applyPartial (validatePayload {} true now).1 tx = tx := rfl
  rw [updateTx_of_valid hl he, happ]
  have hperm : st.transactions.Perm ((txId, tx) :: eraseD st.transactions txId) :=
    perm_cons_eraseD hnd hmem
  obtain ⟨sp, hlsp, hisp⟩ := idxInv_mem_entry hip hmem
  obtain ⟨sc, hlsc, hisc⟩ := idxInv_mem_entry hic hmem
  refine ⟨rfl, ?_, rfl, ?_, ?_, ?_, ?_, ?_⟩
  · show setD st.transactions txId tx = st.transactions
    exact setD_self hnd hmem
  · intro k
    exact (idx_sub_add_same hlsp hisp k).1
  · intro k j
    exact (idx_sub_add_same hlsp hisp k).2 j
  · intro k
    exact (idx_sub_add_same hlsc hisc k).1
  · intro k j
    exact (idx_sub_add_same hlsc hisc k).2 j
  · intro ht
    have key : ∀ (f : Tx → String) (m : Dict String ℚ), ledgerInv st.transactions f m →
        ∀ k, lookupD (ledgerAdd (ledgerSub m (f tx) (total tx)) (f tx) (total tx)) k
          = lookupD m k := by
      intro f m hlinv k
      have hdecS : groupSum st.transactions f (f tx)
          = total tx + groupSum (eraseD st.transactions txId) f (f tx) := by
        rw [groupSum_perm hperm f (f tx), groupSum_cons, if_pos rfl]
      have hrest : 0 ≤ groupSum (eraseD st.transactions txId) f (f tx) :=
        groupSum_nonneg (fun e he => hwf2 e ((eraseD_sublist _ _).subset he)) f (f tx)
      cases hls : lookupD m (f tx) with
      | none =>
        exfalso
        have h0 := hlinv.2 (f tx) hls
        rw [hdecS] at h0
        linarith
      | some S =>
        have hSeq : S = groupSum st.transactions f (f tx) := hlinv.1 (f tx) S hls
        apply ledger_sub_add_same hls ht
        rw [hSeq, hdecS]
        linarith
    exact ⟨fun k => key (fun t => t.product_id) st.product_totals hlp k,
           fun k => key (fun t => t.customer_id) st.customer_totals hlc k⟩

/-- C9.  An empty-string product_id or customer_id filter parameter is
falsy, so the listing's candidate narrowing treats it exactly like an
absent filter (no index lookup, no empty result). -/
theorem c9_empty_filter_absent (pid cid : Option String) (sd ed : Option Int)
    (mn mx : Option ℚ) (st : St) :
    applyFilters (some "") cid sd ed mn mx st
      = applyFilters none cid sd ed mn mx st ∧
    applyFilters pid (some "") sd ed mn mx st
      = applyFilters pid none sd ed mn mx st := by
  constructor <;> rfl

/-- C10.  Invoking top-customers without a limit parameter behaves exactly
as limit = 10. -/
theorem c10_default_limit (st : St) :
    topCustomers none st = topCustomers (some 10) st := rfl

/-- C8.  Id assignment: the counter starts at 1, every live id is below the
counter (so an id is never reassigned after being handed out, even after
its record is deleted), a successful create returns exactly the counter
value and increments the counter by one, a failed create leaves the state
unchanged, and update/delete never change the counter — hence ids handed
out by successive creates are strictly increasing and never reused. -/
theorem c8_id_assignment {st : St} (h : Reachable st) :
    st0.next_id = 1 ∧
    1 ≤ st.next_id ∧
    (∀ e ∈ st.transactions, e.1 < st.next_id) ∧
    (∀ d now,
      (match createTx d now st with
       | (.created tx, st2) => tx.id = st.next_id ∧ st2.next_id = st.next_id + 1
       | (_, st2) => st2 = st)) ∧
    (∀ txId d now, (updateTx txId d now st).2.next_id = st.next_id) ∧
    (∀ txId, (deleteTx txId st).2.next_id = st.next_id) := by
  obtain ⟨hnd, hn1, hwf, -, -, -, -⟩ := reachable_inv h
  refine ⟨rfl, hn1, fun e he => (hwf e he).2.2.2, ?_, ?_, ?_⟩
  · intro d now
    by_cases he : (validatePayload d false now).2 = []
    · rw [createTx_of_valid st he]
      exact ⟨rfl, rfl⟩
    · rw [createTx_of_invalid st he]
  · intro txId d now
    cases hl : lookupD st.transactions txId with
    | none => rw [updateTx_not_found hl]
    | some tx =>
      by_cases he : (validatePayload d true now).2 = []
      · rw [updateTx_of_valid hl he]
        rfl
      · rw [updateTx_of_invalid hl he]
  · intro txId
    cases hl : lookupD st.transactions txId with
    | none => rw [deleteTx_not_found hl]
    | some tx =>
      rw [deleteTx_of_found hl]
      rfl

/-- C7.  Top-N customers: a non-positive limit yields the input error (the
query itself is read-only, so no state is touched by construction); a
positive limit N returns the first min(N, number of ledger entries) pairs
of a descending-by-total reordering of the customer ledger, paired with the
returned count — in particular every returned total is at least every
total left out. -/
theorem c7_top_customers (n : Int) (st : St) :
    (n ≤ 0 → topCustomers (some n) st = .error ["limit must be positive"]) ∧
    (0 < n → ∃ sorted : List (String × ℚ),
      sorted.Perm st.customer_totals ∧
      List.Sorted (fun a b : String × ℚ => b.2 ≤ a.2) sorted ∧
      topCustomers (some n) st
        = .ok (sorted.take n.toNat, (sorted.take n.toNat).length) ∧
      (sorted.take n.toNat).length = min n.toNat st.customer_totals.length ∧
      (∀ a ∈ sorted.take n.toNat, ∀ b ∈ sorted.drop n.toNat, b.2 ≤ a.2)) := by
  constructor
  · intro hle
    simp only [topCustomers, Option.getD_some]
    rw [if_pos hle]
  · intro hpos
    haveI hTot : IsTotal (String × ℚ) (fun a b => b.2 ≤ a.2) :=
      ⟨fun a b => le_total b.2 a.2⟩
    haveI hTrans : IsTrans (String × ℚ) (fun a b => b.2 ≤ a.2) :=
      ⟨fun _ _ _ hab hbc => le_trans hbc hab⟩
    refine ⟨List.insertionSort (fun a b : String × ℚ => b.2 ≤ a.2) st.customer_totals,
      List.perm_insertionSort _ _, List.sorted_insertionSort _ _, ?_, ?_, ?_⟩
    · simp only [topCustomers, Option.getD_some]
      rw [if_neg (not_le.2 hpos)]
    · rw [List.length_take, (List.perm_insertionSort _ _).length_eq]
    · have hsorted : List.Pairwise (fun a b : String × ℚ => b.2 ≤ a.2)
          (List.insertionSort (fun a b : String × ℚ => b.2 ≤ a.2) st.customer_totals) :=
        List.sorted_insertionSort _ _
      rw [← List.take_append_drop n.toNat
        (List.insertionSort (fun a b : String × ℚ => b.2 ≤ a.2) st.customer_totals)]
        at hsorted
      exact (List.pairwise_append.1 hsorted).2.2

/-! ## Listing count machinery -/

/-- Exact-match predicate of a truthy key filter: an absent or empty
parameter matches every record. -/
def matchesKey (o : Option String) (s : String) : Bool :=
  match truthyParam o with
  | none => true
  | some p => s = p

/-- Conjunction of all predicates a supplied listing query imposes on a
record. -/
def listingPred (pid cid : Option String) (sd ed : Option Int)
    (mn mx : Option ℚ) (tx : Tx) : Bool :=
  matchesKey pid tx.product_id && matchesKey cid tx.customer_id &&
    keepTx sd ed mn mx tx

theorem length_lookup_chain (txs : Dict Nat Tx) (P : Tx → Bool) (ids : List Nat) :
    ((ids.filterMap (fun i => lookupD txs i)).filter P).length
      = ids.countP (fun i =>
          match lookupD txs i with
          | some tx => P tx
          | none => false) := by
  induction ids with
  | nil => rfl
  | cons i ids ih =>
    cases hl : lookupD txs i with
    | none => simp [List.filterMap_cons, hl, List.countP_cons, ih]
    | some tx =>
      by_cases hp : P tx <;>
        simp [List.filterMap_cons, hl, List.countP_cons, List.filter_cons, ih, hp]

theorem countP_keys (txs : Dict Nat Tx) (l : List (Nat × Tx)) (P : Tx → Bool)
    (hsub : ∀ e ∈ l, lookupD txs e.1 = some e.2) :
    (l.map (·.1)).countP (fun i =>
        match lookupD txs i with
        | some tx => P tx
        | none => false)
      = l.countP (fun e => P e.2) := by
  induction l with
  | nil => rfl
  | cons e l ih =>
    have he := hsub e (List.mem_cons_self e l)
    have ihl := ih (fun e2 he2 => hsub e2 (List.mem_cons.2 (Or.inr he2)))
    simp [List.countP_cons, he, ihl]

theorem count_core {txs : Dict Nat Tx} (hnd : (keysD txs).Nodup)
    {ids : List Nat} (hidnd : ids.Nodup) {Q : Tx → Bool}
    (hiff : ∀ i, i ∈ ids ↔ ∃ tx, (i, tx) ∈ txs ∧ Q tx) (P : Tx → Bool) :
    ((ids.filterMap (fun i => lookupD txs i)).filter P).length
      = ((txs.map (·.2)).filter (fun tx => Q tx && P tx)).length := by
  rw [List.filter_map, List.length_map]
  rw [length_lookup_chain]
  have hkeysnd : ((txs.filter (fun e => Q e.2)).map (·.1)).Nodup :=
    hnd.sublist ((List.filter_sublist txs).map _)
  have hperm : ids.Perm ((txs.filter (fun e => Q e.2)).map (·.1)) := by
    rw [List.perm_ext_iff_of_nodup hidnd hkeysnd]
    intro i
    rw [hiff i]
    constructor
    · rintro ⟨tx, hmem, hq⟩
      exact List.mem_map.2 ⟨(i, tx), List.mem_filter.2 ⟨hmem, by simpa using hq⟩, rfl⟩
    · intro hmem2
      obtain ⟨e, hef, hei⟩ := List.mem_map.1 hmem2
      obtain ⟨i2, tx2⟩ := e
      cases hei
      have h2 := List.mem_filter.1 hef
      exact ⟨tx2, h2.1, by simpa using h2.2⟩
  rw [hperm.countP_eq, countP_keys txs _ P
    (fun e he => lookupD_of_mem hnd (List.mem_filter.1 he).1)]
  rw [List.countP_filter]
  rw [← List.countP_eq_length_filter]
  apply List.countP_congr
  intro e _
  simp [Function.comp, Bool.and_comm]

theorem idx_candidate_facts {txs : Dict Nat Tx} {f : Tx → String}
    {m : Dict String (List Nat)} (hinv : idxInv txs f m) (p : String) :
    ((lookupD m p).getD []).Nodup ∧
    (∀ i, i ∈ (lookupD m p).getD [] ↔ ∃ tx, (i, tx) ∈ txs ∧ f tx = p) := by
  cases hl : lookupD m p with
  | none =>
    refine ⟨by simp, fun i => ?_⟩
    simp only [Option.getD_none]
    constructor
    · intro hi
      simp at hi
    · rintro ⟨tx, hmem, hf⟩
      have h2 := hinv.2 p hl
      rw [List.eq_nil_iff_forall_not_mem] at h2
      exact absurd (mem_groupIds.2 ⟨tx, hmem, hf⟩) (h2 i)
  | some s =>
    obtain ⟨-, hndup, hiff⟩ := hinv.1 p s hl
    exact ⟨hndup, fun i => (hiff i).trans mem_groupIds⟩

theorem length_filter_values (txs : Dict Nat Tx) (P : Tx → Bool) :
    ((txs.map (·.2)).filter P).length = (txs.filter (fun e => P e.2)).length := by
  rw [List.filter_map, List.length_map]
  rfl

theorem applyFilters_count {st : St} (hInv : Inv st) (pid cid : Option String)
    (sd ed : Option Int) (mn mx : Option ℚ) :
    (applyFilters pid cid sd ed mn mx st).length
      = ((txList st).filter (listingPred pid cid sd ed mn mx)).length := by
  obtain ⟨hnd, -, -, -, -, hip, hic⟩ := hInv
  cases hp : truthyParam pid with
  | none =>
    cases hc : truthyParam cid with
    | none =>
      have hcand : candidateIds pid cid st = none := by
        simp [candidateIds, hp, hc]
      have hpred : ∀ tx ∈ txList st,
          keepTx sd ed mn mx tx = listingPred pid cid sd ed mn mx tx := by
        intro tx _
        simp [listingPred, matchesKey, hp, hc]
      simp only [applyFilters, hcand, txList]
      apply congrArg List.length
      exact List.filter_congr hpred
    | some c =>
      have hcand : candidateIds pid cid st
          = some ((lookupD st.customer_index c).getD []) := by
        simp [candidateIds, hp, hc]
      obtain ⟨hcnd, hciff⟩ := idx_candidate_facts hic c
      have hciff2 : ∀ i, i ∈ (lookupD st.customer_index c).getD []
          ↔ ∃ tx, (i, tx) ∈ st.transactions ∧ decide (tx.customer_id = c) = true := by
        intro i
        simpa using hciff i
      have hcount := count_core hnd hcnd hciff2 (keepTx sd ed mn mx)
      simp only [applyFilters, hcand]
      rw [hcount]
      apply congrArg List.length
      apply List.filter_congr
      intro tx _
      simp [listingPred, matchesKey, hp, hc]
  | some p =>
    obtain ⟨hpnd, hpiff⟩ := idx_candidate_facts hip p
    cases hc : truthyParam cid with
    | none =>
      have hcand : candidateIds pid cid st
          = some ((lookupD st.product_index p).getD []) := by
        simp [candidateIds, hp, hc]
      have hpiff2 : ∀ i, i ∈ (lookupD st.product_index p).getD []
          ↔ ∃ tx, (i, tx) ∈ st.transactions ∧ decide (tx.product_id = p) = true := by
        intro i
        simpa using hpiff i
      have hcount := count_core hnd hpnd hpiff2 (keepTx sd ed mn mx)
      simp only [applyFilters, hcand]
      rw [hcount]
      apply congrArg List.length
      apply List.filter_congr
      intro tx _
      simp [listingPred, matchesKey, hp, hc]
    | some c =>
      obtain ⟨hcnd, hciff⟩ := idx_candidate_facts hic c
      have hcand : candidateIds pid cid st
          = some (((lookupD st.product_index p).getD []).filter
              (· ∈ (lookupD st.customer_index c).getD [])) := by
        simp [candidateIds, hp, hc]
      have hinnd : (((lookupD st.product_index p).getD []).filter
          (· ∈ (lookupD st.customer_index c).getD [])).Nodup := hpnd.filter _
      have hiniff : ∀ i, i ∈ ((lookupD st.product_index p).getD []).filter
          (· ∈ (lookupD st.customer_index c).getD [])
          ↔ ∃ tx, (i, tx) ∈ st.transactions
              ∧ (tx.product_id = p && tx.customer_id = c) := by
        intro i
        rw [List.mem_filter]
        constructor
        · rintro ⟨hip2, hic2⟩
          obtain ⟨tx1, hm1, hf1⟩ := (hpiff i).1 hip2
          obtain ⟨tx2, hm2, hf2⟩ := (hciff i).1 (by simpa using hic2)
          have htx : tx1 = tx2 := by
            have e1 := lookupD_of_mem hnd hm1
            have e2 := lookupD_of_mem hnd hm2
            rw [e1] at e2
            exact Option.some.inj e2
          subst htx
          exact ⟨tx1, hm1, by simp [hf1, hf2]⟩
        · rintro ⟨tx, hmem, hq⟩
          simp only [Bool.and_eq_true, decide_eq_true_eq] at hq
          exact ⟨(hpiff i).2 ⟨tx, hmem, hq.1⟩,
            by simpa using (hciff i).2 ⟨tx, hmem, hq.2⟩⟩
      have hcount := count_core hnd hinnd hiniff (keepTx sd ed mn mx)
      simp only [applyFilters, hcand]
      rw [hcount]
      apply congrArg List.length
      apply List.filter_congr
      intro tx _
      simp [listingPred, matchesKey, hp, hc, Bool.and_assoc]

/-- C5.  Filtered listing and pagination contract: under any combination of
filters the reported count equals the number of live records satisfying all
supplied predicates (exact key matches, inclusive timestamp bounds,
inclusive total bounds); the returned page is the contiguous slice of the
full filtered result starting at the offset (a negative offset clamps to
0), with a negative or absent limit meaning all remaining elements; the
slice never affects the count. -/
theorem c5_listing_contract {st : St} (h : Reachable st) (pid cid : Option String)
    (sd ed : Option Int) (mn mx : Option ℚ) (limit : Option Int) (offset : Int) :
    (listTransactions pid cid sd ed mn mx limit offset st).1
      = ((txList st).filter (listingPred pid cid sd ed mn mx)).length ∧
    ((limit = none ∨ ∃ l, limit = some l ∧ l < 0) →
      (listTransactions pid cid sd ed mn mx limit offset st).2
        = (applyFilters pid cid sd ed mn mx st).drop (max offset 0).toNat) ∧
    (∀ l, limit = some l → 0 ≤ l →
      (listTransactions pid cid sd ed mn mx limit offset st).2
        = ((applyFilters pid cid sd ed mn mx st).drop (max offset 0).toNat).take l.toNat) := by
  have hoff : (max offset 0).toNat = offset.toNat := by omega
  refine ⟨applyFilters_count (reachable_inv h) pid cid sd ed mn mx, ?_, ?_⟩
  · rintro (rfl | ⟨l, rfl, hl⟩)
    · rw [hoff]
      rfl
    · rw [hoff]
      simp only [listTransactions]
      rw [if_pos hl]
  · rintro l rfl h0
    rw [hoff]
    simp only [listTransactions]
    rw [if_neg (not_lt.2 h0)]

/-- C6 (amended).  Listing result order: when no product/customer filter is
supplied (or the parameter is the falsy empty string), the results are
exactly the date/total-filtered record list in creation order — in
particular a sublist of the record set's values.  With an index filter,
iteration follows the index set's own insertion order instead, which can
differ from creation order after an update moves a record between keys
(see the counterexample). -/
theorem c6_listing_order (sd ed : Option Int) (mn mx : Option ℚ) (st : St) :
    applyFilters none none sd ed mn mx st
      = (txList st).filter (keepTx sd ed mn mx) ∧
    (applyFilters none none sd ed mn mx st).Sublist (txList st) := by
  refine ⟨rfl, ?_⟩
  exact List.filter_sublist _

/-! ## Concrete scenarios: witnesses and counterexamples -/

/-- Valid creation payload: product P1, customer C1, quantity 3, price 5. -/
def plA : Payload :=
  ⟨some (.jstr "P1"), none, some (.jstr "C1"), none, some (.jint 3), some (.jint 5), none⟩

/-- State after one successful create. -/
def stA : St := (createTx plA 0 st0).2

/-- The record stored by that create. -/
def txA : Tx := buildTx (validatePayload plA false 0).1 1 0

/-- Partial payload whose quantity fails validation. -/
def plBad : Payload := ⟨none, none, none, none, some (.jstr "x"), none, none⟩

/-- Zero-price creation payload: quantity 1, price 0, so the derived total
is 0. -/
def plZ : Payload :=
  ⟨some (.jstr "P"), none, some (.jstr "C"), none, some (.jint 1), some (.jint 0), none⟩

/-- State after one zero-total create. -/
def stZ : St := (createTx plZ 0 st0).2

/-- The two zero-total records of the round-trip scenario. -/
def txZ : Tx := buildTx (validatePayload plZ false 0).1 1 0

def txZ2 : Tx := buildTx (validatePayload plZ false 0).1 2 0

/-- Two zero-total creates, then delete the first: the ledger key P is
pruned while record 2 stays live. -/
def stZ2 : St := (createTx plZ 0 stZ).2

def stZ3 : St := (deleteTx 1 stZ2).2

theorem c1_counterexample :
    lookupD stZ.product_totals "P" = some 0 ∧
    groupSum stZ.transactions (fun tx => tx.product_id) "P" ≤ 0 := by
  have hq : (validatePayload plZ false 0).1.quantity = some (1 : Int) := rfl
  have hp : (validatePayload plZ false 0).1.price = some ((0 : Int) : ℚ) := rfl
  have ht : total txZ = 0 := by
    simp only [total, txZ, buildTx, hq, hp, Option.getD_some]
    norm_num
  constructor
  · have h1 : stZ.product_totals = [("P", (0 : ℚ) + total txZ)] := rfl
    rw [h1, lookupD_cons, if_pos rfl, ht]
    norm_num
  · have h1 : groupSum stZ.transactions (fun tx => tx.product_id) "P"
        = total txZ + 0 := rfl
    rw [h1, ht]
    norm_num

theorem c1_witness :
    (∀ p v, lookupD stA.product_totals p = some v
        → v = groupSum stA.transactions (fun tx => tx.product_id) p) ∧
    (∀ p, lookupD stA.product_totals p = none
        → groupSum stA.transactions (fun tx => tx.product_id) p = 0) ∧
    (∀ c v, lookupD stA.customer_totals c = some v
        → v = groupSum stA.transactions (fun tx => tx.customer_id) c) ∧
    (∀ c, lookupD stA.customer_totals c = none
        → groupSum stA.transactions (fun tx => tx.customer_id) c = 0) :=
  c1_aggregate_ledger (Reachable.create plA 0 Reachable.init)

theorem c2_witness :
    (∀ p s, lookupD stA.product_index p = some s →
        s ≠ [] ∧ s.Nodup ∧
        ∀ i, i ∈ s ↔ i ∈ groupIds stA.transactions (fun tx => tx.product_id) p) ∧
    (∀ p, lookupD stA.product_index p = none →
        groupIds stA.transactions (fun tx => tx.product_id) p = []) ∧
    (∀ c s, lookupD stA.customer_index c = some s →
        s ≠ [] ∧ s.Nodup ∧
        ∀ i, i ∈ s ↔ i ∈ groupIds stA.transactions (fun tx => tx.customer_id) c) ∧
    (∀ c, lookupD stA.customer_index c = none →
        groupIds stA.transactions (fun tx => tx.customer_id) c = []) :=
  c2_secondary_index (Reachable.create plA 0 Reachable.init)

theorem c3_witness :
    (updateTx 5 {} 0 stA = (.notFound, stA) ∧ deleteTx 5 stA = (.notFound, stA)) ∧
    updateTx 1 plBad 0 stA
      = (.badRequest (validatePayload plBad true 0).2, stA) :=
  ⟨(c3_error_atomicity stA 5 {} 0).1 rfl,
   (c3_error_atomicity stA 1 plBad 0).2 txA rfl (by decide)⟩

theorem c4_counterexample :
    lookupD stZ3.transactions 2 = some txZ2 ∧
    lookupD stZ3.product_totals "P" = none ∧
    lookupD (updateTx 2 {} 0 stZ3).2.product_totals "P" = some 0 := by
  have hq : (validatePayload plZ false 0).1.quantity = some (1 : Int) := rfl
  have hp : (validatePayload plZ false 0).1.price = some ((0 : Int) : ℚ) := rfl
  have ht : total txZ = 0 := by
    simp only [total, txZ, buildTx, hq, hp, Option.getD_some]
    norm_num
  have ht2 : total txZ2 = 0 := by
    simp only [total, txZ2, buildTx, hq, hp, Option.getD_some]
    norm_num
  have h3 : stZ3.product_totals = [] := by
    have h0 : stZ3.product_totals = ledgerSub stZ2.product_totals "P" (total txZ) := rfl
    have h1 : stZ2.product_totals = [("P", (0 + total txZ) + total txZ2)] := rfl
    rw [h0, h1]
    simp only [ledgerSub]
    rw [if_pos (by rw [lookupD_cons, if_pos rfl]; simp [ht, ht2])]
    simp [eraseD, List.filter_cons]
  refine ⟨rfl, ?_, ?_⟩
  · rw [h3]
    rfl
  · have h4 : (updateTx 2 {} 0 stZ3).2.product_totals
        = ledgerAdd (ledgerSub stZ3.product_totals "P" (total txZ2)) "P" (total txZ2) := rfl
    rw [h4, h3]
    have h5 : ledgerSub ([] : Dict String ℚ) "P" (total txZ2) = [] := by
      simp only [ledgerSub]
      rw [if_pos (by simp [ht2])]
      rfl
    rw [h5]
    have h6 : ledgerAdd ([] : Dict String ℚ) "P" (total txZ2)
        = [("P", (0 : ℚ) + total txZ2)] := rfl
    rw [h6, lookupD_cons, if_pos rfl, ht2]
    norm_num

theorem c4_witness :
    (updateTx 1 {} 0 stA).1 = .ok txA ∧
    (updateTx 1 {} 0 stA).2.transactions = stA.transactions ∧
    (updateTx 1 {} 0 stA).2.next_id = stA.next_id ∧
    (∀ k, (lookupD (updateTx 1 {} 0 stA).2.product_index k).isSome
        = (lookupD stA.product_index k).isSome) ∧
    (∀ k j, j ∈ (lookupD (updateTx 1 {} 0 stA).2.product_index k).getD []
        ↔ j ∈ (lookupD stA.product_index k).getD []) ∧
    (∀ k, (lookupD (updateTx 1 {} 0 stA).2.customer_index k).isSome
        = (lookupD stA.customer_index k).isSome) ∧
    (∀ k j, j ∈ (lookupD (updateTx 1 {} 0 stA).2.customer_index k).getD []
        ↔ j ∈ (lookupD stA.customer_index k).getD []) ∧
    (0 < total txA →
      (∀ k, lookupD (updateTx 1 {} 0 stA).2.product_totals k
          = lookupD stA.product_totals k) ∧
      (∀ k, lookupD (updateTx 1 {} 0 stA).2.customer_totals k
          = lookupD stA.customer_totals k)) :=
  @c4_update_roundtrip stA (Reachable.create plA 0 Reachable.init) 1 txA rfl 0

theorem c5_witness :
    (listTransactions (some "P1") none none none none none (some 1) 0 stA).1
      = ((txList stA).filter (listingPred (some "P1") none none none none none)).length ∧
    (((some 1 : Option Int) = none ∨ ∃ l, (some 1 : Option Int) = some l ∧ l < 0) →
      (listTransactions (some "P1") none none none none none (some 1) 0 stA).2
        = (applyFilters (some "P1") none none none none none stA).drop
            (max (0 : Int) 0).toNat) ∧
    (∀ l, (some 1 : Option Int) = some l → 0 ≤ l →
      (listTransactions (some "P1") none none none none none (some 1) 0 stA).2
        = ((applyFilters (some "P1") none none none none none stA).drop
            (max (0 : Int) 0).toNat).take l.toNat) :=
  c5_listing_contract (Reachable.create plA 0 Reachable.init)
    (some "P1") none none none none none (some 1) 0

/-- Creation payloads for the listing-order scenario. -/
def plQ6 : Payload :=
  ⟨some (.jstr "Q"), none, some (.jstr "C"), none, some (.jint 1), some (.jint 5), none⟩

def plP6 : Payload :=
  ⟨some (.jstr "P"), none, some (.jstr "C"), none, some (.jint 1), some (.jint 5), none⟩

/-- Partial payload moving a record to product P. -/
def plToP6 : Payload := ⟨some (.jstr "P"), none, none, none, none, none, none⟩

/-- One create step. -/
def stepC (p : Payload) (st : St) : St := (createTx p 0 st).2

/-- Eight records for product Q (ids 1..8) then one for product P (id 9). -/
def st9 : St :=
  stepC plP6 (stepC plQ6 (stepC plQ6 (stepC plQ6 (stepC plQ6
    (stepC plQ6 (stepC plQ6 (stepC plQ6 (stepC plQ6 st0))))))))

/-- Moving record 2 to product P puts id 2 after id 9 in P's index set. -/
def stC6 : St := (updateTx 2 plToP6 0 st9).2

theorem c6_counterexample :
    (applyFilters (some "P") none none none none none stC6).map (fun tx => tx.id)
      = [9, 2] ∧
    ((txList stC6).filter (fun tx => tx.product_id = "P")).map (fun tx => tx.id)
      = [2, 9] ∧
    ¬ (applyFilters (some "P") none none none none none stC6).Sublist (txList stC6) :=
  ⟨by decide, by decide, by decide⟩

theorem c7_witness :
    topCustomers (some 0) stA = .error ["limit must be positive"] ∧
    (∃ sorted : List (String × ℚ),
      sorted.Perm stA.customer_totals ∧
      List.Sorted (fun a b : String × ℚ => b.2 ≤ a.2) sorted ∧
      topCustomers (some 1) stA
        = .ok (sorted.take (1 : Int).toNat, (sorted.take (1 : Int).toNat).length) ∧
      (sorted.take (1 : Int).toNat).length
        = min (1 : Int).toNat stA.customer_totals.length ∧
      (∀ a ∈ sorted.take (1 : Int).toNat, ∀ b ∈ sorted.drop (1 : Int).toNat,
        b.2 ≤ a.2)) :=
  ⟨(c7_top_customers 0 stA).1 (by decide), (c7_top_customers 1 stA).2 (by decide)⟩

theorem c8_witness :
    st0.next_id = 1 ∧
    1 ≤ stA.next_id ∧
    (∀ e ∈ stA.transactions, e.1 < stA.next_id) ∧
    (∀ d now,
      (match createTx d now stA with
       | (.created tx, st2) => tx.id = stA.next_id ∧ st2.next_id = stA.next_id + 1
       | (_, st2) => st2 = stA)) ∧
    (∀ txId d now, (updateTx txId d now stA).2.next_id = stA.next_id) ∧
    (∀ txId, (deleteTx txId stA).2.next_id = stA.next_id) :=
  c8_id_assignment (Reachable.create plA 0 Reachable.init)

end SalesAPI
